import Mathlib

/-!
# BigInt (namespace `rxh`, file `BigInt.h`)

A shallow embedding of the arbitrary-precision integer class of `BigInt.h` and a
verification of its arithmetic, comparison and text conversions.

Modelling conventions.

* `std::string` is `List Char`; the digit string `num` is stored least significant
  digit first, exactly as in the class.  A character is read as its code
  (`Char.toNat`), a computed code is written back with `toChar` (reduction modulo 256).
* `int` / `long long` quantities are `Int`; C++ `/` and `%` on them are `Int.tdiv` and
  `Int.tmod` (truncation toward zero).
* `operator+` and `operator-` call each other, and three loops have no bound that is
  visible in their header: the carry loop of `operator+`, `while (k--)` of `operator*`,
  and `while (!(c < a))` of `operator/` and `operator%`.  These take a `fuel` argument
  and answer `Fault.outOfFuel` when it is exhausted; `Returns f r` says that every
  sufficiently large fuel yields the value `r`.  The loops that run over the indices
  of a string are recursions over that string or over the index.
* A native integer division whose divisor is zero has no defined result in C++; it is
  modelled as the outcome `Fault.nativeDivisionByZero`.
* The conversion to a native signed integer of `w` bits computes with `wrap w`, the
  reduction modulo `2^w` into the signed range; the conversion from a native integer
  goes through `std::to_string`, taken as the decimal numeral `toString`.
-/

namespace rxh

/-- Ways in which a run of the embedded code ends without a value. -/
inductive Fault where
  /-- A native integer division was evaluated with divisor zero. -/
  | nativeDivisionByZero
  /-- The fuel of the embedding ran out (the run had not finished yet). -/
  | outOfFuel
deriving DecidableEq, Repr

/-- The data members of `class BigInt`: `std::string num` and `int sign`. -/
structure BigInt where
  num : List Char
  sign : Int
deriving DecidableEq, Repr

/-- The character stored at `s[size()]`, which `std::string::operator[]` may read. -/
def nul : Char := Char.ofNat 0

/-- Conversion of an integer expression to `char` (the low eight bits). -/
def toChar (v : Int) : Char := Char.ofNat (v % 256).toNat

/-- The expression `ch - 48` on a character. -/
def digitVal (ch : Char) : Int := (ch.toNat : Int) - 48

/-- Native integer division `n / d`; the divisor zero is a fault. -/
def nativeDiv (n d : Int) : Except Fault Int :=
  if d = 0 then .error .nativeDivisionByZero else .ok (n.tdiv d)

/-- `digits()`: `num.size()`. -/
def BigInt.digits (x : BigInt) : Nat := x.num.length

/-- The loop of `normalize`: `for (i = num.size() - 1; i > 0 && num[i] == '0'; i--)
num.erase(num.begin() + i)`.  The first argument is `i`. -/
def normalizeLoop : Nat → List Char → List Char
  | 0, num => num
  | i + 1, num =>
    if num.getD (i + 1) nul = '0' then normalizeLoop i (num.eraseIdx (i + 1)) else num

/-- `BigInt::normalize(int newSign)`: remove leading zeroes and fix sign. -/
def BigInt.normalize (x : BigInt) (newSign : Int) : BigInt :=
  let num := normalizeLoop (x.num.length - 1) x.num
  { num := num, sign := if num.length = 1 ∧ num.getD 0 nul = '0' then 1 else newSign }

/-- `BigInt::inverseSign()`: `sign *= -1`. -/
def BigInt.inverseSign (x : BigInt) : BigInt := { x with sign := x.sign * -1 }

/-- Unary `operator-`: `BigInt(*this).inverseSign()`. -/
def BigInt.neg (x : BigInt) : BigInt := x.inverseSign

/-- `abs(a)`: `BigInt(a).normalize(1)`. -/
def BigInt.abs (a : BigInt) : BigInt := a.normalize 1

/-- `std::string::find(".")`: the position of the first dot, if there is one. -/
def findDot : List Char → Option Nat
  | [] => none
  | ch :: rest => if ch = '.' then some 0 else (findDot rest).map (· + 1)

/-- `if (dotPos != std::string::npos) num.erase(dotPos);`: erasing from `dotPos` to the
end keeps the first `dotPos` characters. -/
def eraseFrom (num : List Char) : Option Nat → List Char
  | some dotPos => num.take dotPos
  | none => num

/-- `BigInt::operator=(std::string b)`.  `b[0]` of the empty string is the terminating
`nul`. -/
def assignString (b : List Char) : BigInt :=
  let num := if b.getD 0 nul = '-' then b.drop 1 else b
  let num := eraseFrom num (findDot num)
  let num := num.reverse
  BigInt.normalize { num := num, sign := 1 } (if b.getD 0 nul = '-' then -1 else 1)

/-- The digit loop of `operator<`: `for (i = digits(); i --> 0; ) if (num[i] != a.num[i])
return sign == 1 ? num[i] < a.num[i] : num[i] > a.num[i];` and `return false` after it.
The first argument is the value of `i` before the test `i --> 0`. -/
def ltLoop (x a : BigInt) : Nat → Bool
  | 0 => false
  | i + 1 =>
    if x.num.getD i nul ≠ a.num.getD i nul then
      (if x.sign = 1 then decide ((x.num.getD i nul).toNat < (a.num.getD i nul).toNat)
       else decide ((x.num.getD i nul).toNat > (a.num.getD i nul).toNat))
    else ltLoop x a i

/-- `BigInt::operator<`. -/
def BigInt.lt (x a : BigInt) : Bool :=
  if x.sign ≠ a.sign then decide (x.sign < a.sign)
  else if x.num.length ≠ a.num.length then
    (if x.sign = 1 then decide (x.num.length < a.num.length)
     else decide (x.num.length > a.num.length))
  else ltLoop x a x.digits

/-- `BigInt::operator==`: `sign == a.sign && num == a.num`. -/
def BigInt.eq (x a : BigInt) : Bool := decide (x.sign = a.sign) && decide (x.num = a.num)

/-- The operand `i < s.size() ? s[i] - 48 : 0` of the carry sum in `operator+`, for
the part of the string `s` from index `i` on. -/
def addend : List Char → Int
  | [] => 0
  | ch :: _ => digitVal ch

/-- The loop of `operator+`:
`for (i = 0, carry = 0; i < num.size() || i < a.digits() || carry; i++)`.
`xs` and `as` are the parts of `num` and `a.num` from index `i` on, so `i < num.size()`
is `xs ≠ []`; the result is the run of characters appended to `c.num`. -/
def addLoop : Nat → List Char → List Char → Int → Except Fault (List Char)
  | 0, _, _, _ => .error .outOfFuel
  | fuel + 1, xs, as, carry =>
    if xs ≠ [] ∨ as ≠ [] ∨ carry ≠ 0 then
      let carry := carry + addend xs + addend as
      match addLoop fuel xs.tail as.tail (carry.tdiv 10) with
      | .error e => .error e
      | .ok rest => .ok (toChar (carry.tmod 10 + 48) :: rest)
    else .ok []

/-- The operand `i < a.digits() ? a.num[i] : 48` of the borrow step in `operator-`, for
the part of `a.num` from index `i` on. -/
def subtrahend : List Char → Int
  | [] => 48
  | ch :: _ => (ch.toNat : Int)

/-- The loop of `operator-`: `for (i = 0, borrow = 0; i < num.size(); i++)`.  `xs` and
`as` are the parts of `num` and `a.num` from index `i` on.  The result is the run of
characters appended to `c.num`, together with the value of `borrow` at loop exit. -/
def subLoop : List Char → List Char → Int → List Char × Int
  | [], _, borrow => ([], borrow)
  | ch :: xs, as, borrow =>
    let b := (ch.toNat : Int) - borrow - subtrahend as
    let rest := subLoop xs as.tail (if b ≥ 0 then 0 else 1)
    ((if b ≥ 0 then toChar (b + 48) else toChar (b + 58)) :: rest.1, rest.2)

mutual
/-- `BigInt::operator+`. -/
def add : Nat → BigInt → BigInt → Except Fault BigInt
  | 0, _, _ => .error .outOfFuel
  | fuel + 1, x, a =>
    if x.sign ≠ a.sign then sub fuel x a.neg
    else
      match addLoop fuel x.num a.num 0 with
      | .error e => .error e
      | .ok c => .ok (BigInt.normalize { num := c, sign := 1 } x.sign)
/-- `BigInt::operator-`. -/
def sub : Nat → BigInt → BigInt → Except Fault BigInt
  | 0, _, _ => .error .outOfFuel
  | fuel + 1, x, a =>
    if x.sign ≠ a.sign then add fuel x a.neg
    else
      let s := x.sign
      if x.abs.lt a.abs then
        match sub fuel a.abs x.abs with
        | .error e => .error e
        | .ok t => .ok (t.inverseSign.normalize (-s))
      else .ok (BigInt.normalize { num := (subLoop x.num a.num 0).1, sign := 1 } s)
end

/-- The inner loop of `operator*`: `while (k--) c = c + a;`.  The first argument
bounds the number of iterations, the second is the fuel handed to `operator+`. -/
def mulWhile : Nat → Nat → BigInt → Int → BigInt → Except Fault BigInt
  | 0, _, _, _, _ => .error .outOfFuel
  | n + 1, fuel, a, k, c =>
    if k ≠ 0 then
      match add fuel c a with
      | .error e => .error e
      | .ok c1 => mulWhile n fuel a (k - 1) c1
    else .ok c

/-- The outer loop of `operator*`:
`for (i = 0, k = num[i] - 48; i < num.size(); i++, k = num[i] - 48)` with body
`while (k--) c = c + a; a.num.insert(a.num.begin(), '0');`.  The list is the part of
`num` from index `i` on; the result is the pair `(c, a)` at loop exit. -/
def mulLoop (fuel : Nat) : List Char → BigInt → BigInt → Except Fault (BigInt × BigInt)
  | [], c, a => .ok (c, a)
  | ch :: rest, c, a =>
    match mulWhile fuel fuel a (digitVal ch) c with
    | .error e => .error e
    | .ok c1 => mulLoop fuel rest c1 { a with num := '0' :: a.num }

/-- `BigInt::operator*`. -/
def mul (fuel : Nat) (x a : BigInt) : Except Fault BigInt :=
  match mulLoop fuel x.num (assignString ['0']) a with
  | .error e => .error e
  | .ok (c, a1) => .ok (c.normalize (x.sign * a1.sign))

/-- The first statement of `operator/` and `operator%`:
`if (a.digits() == 1 && a.num[0] == '0') a.num[0] /= (a.num[0] - 48);`. -/
def zeroGuard (a : BigInt) : Except Fault BigInt :=
  if a.digits = 1 ∧ a.num.getD 0 nul = '0' then
    match nativeDiv (a.num.getD 0 nul).toNat (digitVal (a.num.getD 0 nul)) with
    | .error e => .error e
    | .ok q => .ok { a with num := a.num.set 0 (toChar q) }
  else .ok a

/-- The inner loop of `operator/` and `operator%` at digit position `i`:
`while (!(c < a)) c = c - a, d.num[i]++;`.  The argument `dnum` is `d.num` (for
`operator%`, which keeps no quotient, the second component of the result is unused).
The first argument bounds the number of iterations. -/
def divWhile : Nat → Nat → BigInt → Nat → BigInt → List Char →
    Except Fault (BigInt × List Char)
  | 0, _, _, _, _, _ => .error .outOfFuel
  | n + 1, fuel, a, i, c, dnum =>
    if !(c.lt a) then
      match sub fuel c a with
      | .error e => .error e
      | .ok c1 => divWhile n fuel a i c1 (dnum.set i (toChar ((dnum.getD i nul).toNat + 1)))
    else .ok (c, dnum)

/-- The outer loop of `operator/` and `operator%`: `for (i = digits(); i --> 0; )` with
body `c.num.insert(c.num.begin(), '0'); c = c + num.substr(i, 1);
while (!(c < a)) c = c - a, d.num[i]++;`.  The argument after the fuel is the value of
`i` before the test `i --> 0`; the result is `(c, d.num)` at loop exit. -/
def divLoop (fuel : Nat) (x a : BigInt) : Nat → BigInt → List Char →
    Except Fault (BigInt × List Char)
  | 0, c, dnum => .ok (c, dnum)
  | i + 1, c, dnum =>
    match add fuel { c with num := '0' :: c.num } (assignString ((x.num.drop i).take 1)) with
    | .error e => .error e
    | .ok c1 =>
      match divWhile fuel fuel a i c1 dnum with
      | .error e => .error e
      | .ok (c2, dnum2) => divLoop fuel x a i c2 dnum2

/-- `BigInt::operator/`.  `d` starts as `BigInt()` (the text `"0"`) and receives one
more `'0'` per digit of `num`. -/
def div (fuel : Nat) (x a : BigInt) : Except Fault BigInt :=
  match zeroGuard a with
  | .error e => .error e
  | .ok a1 =>
    let c := assignString ['0']
    let d := assignString ['0']
    let dnum := d.num ++ List.replicate x.num.length '0'
    let dSign := x.sign * a1.sign
    match divLoop fuel x { a1 with sign := 1 } x.digits c dnum with
    | .error e => .error e
    | .ok (_, dnum1) => .ok (BigInt.normalize { d with num := dnum1 } dSign)

/-- `BigInt::operator%`. -/
def mod (fuel : Nat) (x a : BigInt) : Except Fault BigInt :=
  match zeroGuard a with
  | .error e => .error e
  | .ok a1 =>
    let c := assignString ['0']
    match divLoop fuel x { a1 with sign := 1 } x.digits c [] with
    | .error e => .error e
    | .ok (c1, _) => .ok (c1.normalize x.sign)

/-- `pow(a, exp)`: `BigInt temp = 1; for (i = 1; i <= exp; i++) temp *= a;`.
`BigInt temp = 1` assigns `std::to_string(1)`. -/
def pow (fuel : Nat) (a : BigInt) : Nat → Except Fault BigInt
  | 0 => .ok (assignString ['1'])
  | exp + 1 =>
    match pow fuel a exp with
    | .error e => .error e
    | .ok temp => mul fuel temp a

/-- `to_string(BigInt a)`: copy `num`, append `'-'` when `sign == -1`, reverse. -/
def to_string (a : BigInt) : List Char :=
  (a.num ++ (if a.sign = -1 then ['-'] else [])).reverse

/-- `operator<<`: the characters written to the stream, `'-'` when `sign == -1`, then
`num` from its last character to its first. -/
def output (c : BigInt) : List Char :=
  (if c.sign = -1 then ['-'] else []) ++ c.num.reverse

/-! ## Specification vocabulary -/

/-- `Returns f r`: the fuelled computation `f` yields the value `r` for every
sufficiently large fuel. -/
def Returns {α : Type} (f : Nat → Except Fault α) (r : α) : Prop :=
  ∃ N, ∀ fuel, N ≤ fuel → f fuel = .ok r

/-- A decimal digit character, `'0'` to `'9'`. -/
def IsDigit (ch : Char) : Prop := 48 ≤ ch.toNat ∧ ch.toNat ≤ 57

instance (ch : Char) : Decidable (IsDigit ch) := by
  unfold IsDigit; infer_instance

/-- The number denoted by a digit string stored least significant digit first:
the sum of `digit_i * 10^i`. -/
def natVal : List Char → Int
  | [] => 0
  | ch :: rest => digitVal ch + 10 * natVal rest

/-- The integer denoted by a `BigInt`: `sign * natVal num`. -/
def val (x : BigInt) : Int := x.sign * natVal x.num

/-- A sign in `{+1, -1}` and a non-empty string of decimal digits. -/
def WellFormed (x : BigInt) : Prop :=
  (x.sign = 1 ∨ x.sign = -1) ∧ x.num ≠ [] ∧ ∀ ch ∈ x.num, IsDigit ch

/-- The representation invariant: well-formed, no most-significant zero digit except
in the single digit `0`, and zero carries the sign `+1`. -/
def Canonical (x : BigInt) : Prop :=
  WellFormed x ∧ (x.num.getLast? = some '0' → x.num = ['0']) ∧ (x.num = ['0'] → x.sign = 1)

instance (x : BigInt) : Decidable (WellFormed x) := by
  unfold WellFormed; infer_instance

instance (x : BigInt) : Decidable (Canonical x) := by
  unfold Canonical; infer_instance

/-- The part of a text after its optional leading `'-'`. -/
def unsignedPart (s : List Char) : List Char := if s.head? = some '-' then s.tail else s

/-- The digit run of a text: the decimal digits that follow the optional `'-'`. -/
def integerPart (s : List Char) : List Char :=
  (unsignedPart s).takeWhile (fun ch => decide (IsDigit ch))

/-- What follows the digit run of a text. -/
def fractionPart (s : List Char) : List Char :=
  (unsignedPart s).dropWhile (fun ch => decide (IsDigit ch))

/-- The text grammar `['-'] digit+ ['.' digit*]`. -/
def wellFormedText (s : List Char) : Bool :=
  decide (integerPart s ≠ []) &&
    (match fractionPart s with
     | [] => true
     | ch :: fs => decide (ch = '.') && fs.all (fun c => decide (IsDigit c)))

/-- The integer denoted by a digit run read most significant digit first. -/
def decimal (ds : List Char) : Int := ds.foldl (fun acc ch => 10 * acc + digitVal ch) 0

/-- The statement `d.num[i]++` of `operator/`, as `divWhile` performs it. -/
def bump (i : Nat) (dnum : List Char) : List Char :=
  dnum.set i (toChar ((dnum.getD i nul).toNat + 1))

/-- `BigInt::operator>`: `a < (*this)`. -/
def BigInt.gt (x a : BigInt) : Bool := a.lt x

/-- `BigInt::operator!=`: `sign != a.sign || num != a.num`. -/
def BigInt.ne (x a : BigInt) : Bool := decide (x.sign ≠ a.sign) || decide (x.num ≠ a.num)

/-- `BigInt::operator<=`: `(*this) < a || (*this) == a`. -/
def BigInt.le (x a : BigInt) : Bool := x.lt a || x.eq a

/-- `BigInt::operator>=`: `(*this) > a || (*this) == a`. -/
def BigInt.ge (x a : BigInt) : Bool := x.gt a || x.eq a

/-- `BigInt::operator^`: `pow(*this, exp)`. -/
def powOperator (fuel : Nat) (x : BigInt) (exp : Nat) : Except Fault BigInt := pow fuel x exp

/-- The value of a native signed `w`-bit operation whose exact result is `v`, under
wrap-around: `v` reduced modulo `2^w` into the range `-2^(w-1) .. 2^(w-1) - 1`. -/
def wrap (w : Nat) (v : Int) : Int := (v + 2 ^ (w - 1)) % 2 ^ w - 2 ^ (w - 1)

/-- The loop of `BigInt::operator T()` for a signed `w`-bit `T`:
`for (i = digits(); i --> 0; ) temp = (temp * 10 + (num[i] - '0'));`.  The second
argument is the value of `i` before the test `i --> 0`. -/
def castLoop (w : Nat) (num : List Char) : Nat → Int → Int
  | 0, temp => temp
  | i + 1, temp => castLoop w num i (wrap w (wrap w (temp * 10) + digitVal (num.getD i nul)))

/-- `BigInt::operator T()` for a signed `w`-bit `T`: `T temp = 0;`, the loop, and
`return temp * this->sign;`. -/
def toNative (w : Nat) (x : BigInt) : Int := wrap w (castLoop w x.num x.digits 0 * x.sign)

/-- `BigInt::operator=(T a)` for a native integer `a`: `(*this) = std::to_string(a)`.
`std::to_string` of the standard library gives the decimal numeral of `a`, with a
leading `'-'` for a negative `a`; that numeral is `toString a`. -/
def fromNative (a : Int) : BigInt := assignString (toString a).toList

/-- The body of the outer loop of `operator/` and `operator%` at digit position `i`:
`c.num.insert(c.num.begin(), '0'); c = c + num.substr(i, 1);
while (!(c < a)) c = c - a, d.num[i]++;`. -/
def divBody (fuel : Nat) (x a : BigInt) (i : Nat) (c : BigInt) (dnum : List Char) :
    Except Fault (BigInt × List Char) :=
  match add fuel { c with num := '0' :: c.num } (assignString ((x.num.drop i).take 1)) with
  | .error e => .error e
  | .ok c1 => divWhile fuel fuel a i c1 dnum

/-- `LoopState x a dnum0 i c dnum`: the outer loop of `operator/` (or of `operator%`) on
the dividend `x` and the sign-stripped divisor `a`, started with `c = BigInt("0")` and
`d.num = dnum0`, arrives at its test `i --> 0` with the counter at `i` and the state
`(c, d.num) = (c, dnum)`. -/
inductive LoopState (x a : BigInt) (dnum0 : List Char) : Nat → BigInt → List Char → Prop
  | start : LoopState x a dnum0 x.digits (assignString ['0']) dnum0
  | step {i : Nat} {c c2 : BigInt} {dnum dnum2 : List Char} :
      LoopState x a dnum0 (i + 1) c dnum →
      Returns (fun fuel => divBody fuel x a i c dnum) (c2, dnum2) →
      LoopState x a dnum0 i c2 dnum2

/-- The quotient string of `operator/` in a state with the counter at `i`: decimal
digits only, one more than the dividend has, `'0'` below `i` and `'0'` at the extra
most significant position. -/
def QuotientOk (n i : Nat) (dnum : List Char) : Prop :=
  (∀ ch ∈ dnum, IsDigit ch) ∧ dnum.length = n + 1 ∧ (∀ j, j < i → dnum.getD j nul = '0') ∧
    dnum.getD n nul = '0'

/-- The facts used about the digit string left by `normalize`. -/
structure Stripped (xs r : List Char) : Prop where
  isInit : r <+: xs
  zeros : ∃ k, xs = r ++ List.replicate k '0'
  nonempty : xs ≠ [] → r ≠ []
  value : natVal r = natVal xs
  last : r.getLast? = some '0' → r = ['0']
  fixed : (xs.getLast? = some '0' → xs.length ≤ 1) → r = xs

/-- The fuel that `operator+` and `operator-` need on well-formed operands. -/
def addFuel (x a : BigInt) : Nat := 2 * (x.num.length + a.num.length) + 3

/-! # Verification -/

/-! ## Characters -/

theorem char_eq_of_toNat_eq {c d : Char} (h : c.toNat = d.toNat) : c = d := by
  rw [← Char.ofNat_toNat c, ← Char.ofNat_toNat d, h]

theorem toChar_digit_toNat (v : Int) (h0 : 0 ≤ v) (h9 : v ≤ 9) :
    ((toChar (v + 48)).toNat : Int) = v + 48 := by
  obtain ⟨n, rfl⟩ := Int.eq_ofNat_of_zero_le h0
  have hn : n ≤ 9 := by omega
  interval_cases n <;> rfl

theorem digitVal_toChar (v : Int) (h0 : 0 ≤ v) (h9 : v ≤ 9) :
    digitVal (toChar (v + 48)) = v := by
  unfold digitVal; rw [toChar_digit_toNat v h0 h9]; omega

theorem isDigit_toChar (v : Int) (h0 : 0 ≤ v) (h9 : v ≤ 9) : IsDigit (toChar (v + 48)) := by
  have h := toChar_digit_toNat v h0 h9
  unfold IsDigit; omega

theorem IsDigit.digitVal_nonneg {ch : Char} (h : IsDigit ch) : 0 ≤ digitVal ch := by
  unfold IsDigit at h; unfold digitVal; omega

theorem IsDigit.digitVal_le {ch : Char} (h : IsDigit ch) : digitVal ch ≤ 9 := by
  unfold IsDigit at h; unfold digitVal; omega

theorem digitVal_zero : digitVal '0' = 0 := by decide

theorem digitVal_eq_zero {ch : Char} (h : digitVal ch = 0) : ch = '0' := by
  apply char_eq_of_toNat_eq
  unfold digitVal at h
  have : ('0' : Char).toNat = 48 := by decide
  omega

theorem digitVal_inj {c d : Char} (h : digitVal c = digitVal d) : c = d := by
  apply char_eq_of_toNat_eq
  unfold digitVal at h
  omega


/-! ## Digit strings and their values -/

theorem natVal_append (xs ys : List Char) :
    natVal (xs ++ ys) = natVal xs + 10 ^ xs.length * natVal ys := by
  induction xs with
  | nil => simp [natVal]
  | cons ch rest ih =>
    show natVal (ch :: (rest ++ ys)) = _
    simp only [natVal, ih, List.length_cons, pow_succ]; ring

theorem natVal_nonneg {xs : List Char} (h : ∀ ch ∈ xs, IsDigit ch) : 0 ≤ natVal xs := by
  induction xs with
  | nil => simp [natVal]
  | cons ch rest ih =>
    have h1 := (h ch (List.mem_cons_self _ _)).digitVal_nonneg
    have h2 := ih (fun c hc => h c (List.mem_cons_of_mem _ hc))
    simp only [natVal]; omega

theorem natVal_lt {xs : List Char} (h : ∀ ch ∈ xs, IsDigit ch) :
    natVal xs < 10 ^ xs.length := by
  induction xs with
  | nil => simp [natVal]
  | cons ch rest ih =>
    have h1 := (h ch (List.mem_cons_self _ _)).digitVal_le
    have h2 := ih (fun c hc => h c (List.mem_cons_of_mem _ hc))
    simp only [natVal, List.length_cons, pow_succ]; omega

/-- A digit string whose value is zero consists of `'0'` characters only. -/
theorem natVal_eq_zero {xs : List Char} (h : ∀ ch ∈ xs, IsDigit ch) (hz : natVal xs = 0) :
    ∀ ch ∈ xs, ch = '0' := by
  induction xs with
  | nil => simp
  | cons ch rest ih =>
    have h1 := (h ch (List.mem_cons_self _ _)).digitVal_nonneg
    have hr : ∀ c ∈ rest, IsDigit c := fun c hc => h c (List.mem_cons_of_mem _ hc)
    have h2 := natVal_nonneg hr
    simp only [natVal] at hz
    intro c hc
    rcases List.mem_cons.1 hc with rfl | hc
    · exact digitVal_eq_zero (by omega)
    · exact ih hr (by omega) c hc

/-- One step of the loop of `normalize`, seen at the last character of the string. -/
theorem normalizeLoop_append (xs : List Char) (ch : Char) :
    normalizeLoop xs.length (xs ++ [ch]) =
      if xs ≠ [] ∧ ch = '0' then normalizeLoop (xs.length - 1) xs else xs ++ [ch] := by
  cases xs with
  | nil => simp [normalizeLoop]
  | cons x rest =>
    have hget : (x :: rest ++ [ch]).getD (rest.length + 1) nul = ch := by
      have := List.getD_append_right (x :: rest) [ch] nul (rest.length + 1) (by simp)
      simp
    have he : (x :: rest ++ [ch]).eraseIdx (rest.length + 1) = x :: rest := by
      have := List.eraseIdx_append_of_length_le (l := x :: rest) (k := rest.length + 1) (by simp) [ch]
      simpa using this
    simp only [List.length_cons, normalizeLoop, hget, he]
    simp

theorem normalizeLoop_stripped (xs : List Char) :
    Stripped xs (normalizeLoop (xs.length - 1) xs) := by
  induction xs using List.reverseRecOn with
  | nil =>
    exact ⟨by simp [normalizeLoop], ⟨0, by simp [normalizeLoop]⟩, by simp, by simp [normalizeLoop],
      by simp [normalizeLoop], by simp [normalizeLoop]⟩
  | append_singleton xs ch ih =>
    have hlen : (xs ++ [ch]).length - 1 = xs.length := by simp
    rw [hlen, normalizeLoop_append]
    split
    · rename_i h
      obtain ⟨hne, rfl⟩ := h
      refine ⟨ih.isInit.trans (List.prefix_append _ _), ?_, fun _ => ih.nonempty hne, ?_, ih.last,
        ?_⟩
      · obtain ⟨k, hk⟩ := ih.zeros
        refine ⟨k + 1, ?_⟩
        rw [List.replicate_succ', ← List.append_assoc, ← hk]
      · rw [ih.value, natVal_append]; simp [natVal, digitVal_zero]
      · intro hf
        have : (xs ++ ['0']).length ≤ 1 := hf (by simp)
        cases xs with
        | nil => exact absurd rfl hne
        | cons _ _ => simp at this
    · rename_i h
      refine ⟨List.prefix_refl _, ⟨0, by simp⟩, fun _ => by simp, rfl, ?_, fun _ => rfl⟩
      intro hl
      have hl : ch = '0' := by simpa using hl
      subst hl
      cases xs with
      | nil => rfl
      | cons _ _ => simp at h

/-! ## `normalize` -/

theorem single_zero_iff (num : List Char) :
    (num.length = 1 ∧ num.getD 0 nul = '0') ↔ num = ['0'] := by
  cases num with
  | nil => simp
  | cons ch rest =>
    cases rest with
    | nil => simp
    | cons _ _ => simp

theorem normalize_num (x : BigInt) (s : Int) :
    (x.normalize s).num = normalizeLoop (x.num.length - 1) x.num := rfl

theorem normalize_sign (x : BigInt) (s : Int) :
    (x.normalize s).sign = if (x.normalize s).num = ['0'] then 1 else s := by
  simp only [BigInt.normalize, single_zero_iff]

theorem normalize_stripped (x : BigInt) (s : Int) : Stripped x.num (x.normalize s).num :=
  normalizeLoop_stripped x.num

theorem normalize_val (x : BigInt) (s : Int) : val (x.normalize s) = s * natVal x.num := by
  have hv := (normalize_stripped x s).value
  unfold val
  rw [normalize_sign, hv]
  split
  · rename_i h
    rw [← hv, h]; simp [natVal, digitVal_zero]
  · rfl

theorem normalize_wellFormed {x : BigInt} {s : Int} (hs : s = 1 ∨ s = -1) (hne : x.num ≠ [])
    (hd : ∀ ch ∈ x.num, IsDigit ch) : WellFormed (x.normalize s) := by
  have hst := normalize_stripped x s
  refine ⟨?_, hst.nonempty hne, fun ch hch => hd ch (hst.isInit.subset hch)⟩
  rw [normalize_sign]; split
  · exact Or.inl rfl
  · exact hs

theorem normalize_canonical {x : BigInt} {s : Int} (hs : s = 1 ∨ s = -1) (hne : x.num ≠ [])
    (hd : ∀ ch ∈ x.num, IsDigit ch) : Canonical (x.normalize s) := by
  refine ⟨normalize_wellFormed hs hne hd, (normalize_stripped x s).last, fun h => ?_⟩
  rw [normalize_sign, if_pos h]

/-- `normalize` leaves the digit string of a canonical value alone. -/
theorem normalize_num_of_canonical {x : BigInt} (hx : Canonical x) (s : Int) :
    (x.normalize s).num = x.num := by
  apply (normalize_stripped x s).fixed
  intro h
  rw [hx.2.1 h]; simp

theorem Canonical.wellFormed {x : BigInt} (h : Canonical x) : WellFormed x := h.1

/-- A canonical value is zero exactly when its digit string is `"0"`. -/
theorem Canonical.num_eq_zero_iff {x : BigInt} (hx : Canonical x) :
    natVal x.num = 0 ↔ x.num = ['0'] := by
  constructor
  · intro hz
    have hall := natVal_eq_zero hx.1.2.2 hz
    have hne := hx.1.2.1
    have hlast : x.num.getLast? = some '0' := by
      rw [List.getLast?_eq_getLast _ hne, hall _ (List.getLast_mem hne)]
    exact hx.2.1 hlast
  · intro h; rw [h]; simp [natVal, digitVal_zero]

/-- The digit string of a canonical non-zero value of `n` digits is at least `10^(n-1)`. -/
theorem Canonical.natVal_ge {x : BigInt} (hx : Canonical x) (hnz : x.num ≠ ['0']) :
    10 ^ (x.num.length - 1) ≤ natVal x.num := by
  obtain ⟨⟨_, hne, hd⟩, hlast, _⟩ := hx
  obtain ⟨ini, ch, hxs⟩ : ∃ ini ch, x.num = ini ++ [ch] := by
    refine ⟨x.num.dropLast, x.num.getLast hne, ?_⟩
    exact (List.dropLast_append_getLast hne).symm
  rw [hxs] at hd hlast hnz ⊢
  have hch : IsDigit ch := hd ch (by simp)
  have hini : ∀ c ∈ ini, IsDigit c := fun c hc => hd c (by simp [hc])
  have hne0 : digitVal ch ≠ 0 := by
    intro h0
    have := digitVal_eq_zero h0
    subst this
    exact hnz (hlast (by simp))
  have h1 : 1 ≤ digitVal ch := by have := hch.digitVal_nonneg; omega
  rw [natVal_append]
  simp only [List.length_append, List.length_singleton, Nat.add_sub_cancel, natVal, mul_zero,
    add_zero]
  have h2 := natVal_nonneg hini
  have h3 : (0:Int) < 10 ^ ini.length := by positivity
  nlinarith

/-! ## `operator<` -/

theorem take_succ_getD (l : List Char) (i : Nat) (h : i < l.length) :
    l.take (i + 1) = l.take i ++ [l.getD i nul] := by
  rw [List.take_succ, List.getD_eq_getElem?_getD, List.getElem?_eq_getElem h]
  simp

theorem natVal_take_succ (l : List Char) (i : Nat) (h : i < l.length) :
    natVal (l.take (i + 1)) = natVal (l.take i) + 10 ^ i * digitVal (l.getD i nul) := by
  rw [take_succ_getD l i h, natVal_append, List.length_take, Nat.min_eq_left (Nat.le_of_lt h)]
  simp [natVal]

theorem isDigit_getD {l : List Char} (hd : ∀ ch ∈ l, IsDigit ch) (i : Nat) (h : i < l.length) :
    IsDigit (l.getD i nul) := by
  rw [List.getD_eq_getElem?_getD, List.getElem?_eq_getElem h]
  exact hd _ (List.getElem_mem _)

/-- The digit loop of `operator<` compares the values of the low `i` digits. -/
theorem ltLoop_eq (x a : BigInt) (hx : ∀ ch ∈ x.num, IsDigit ch) (ha : ∀ ch ∈ a.num, IsDigit ch)
    (i : Nat) (hix : i ≤ x.num.length) (hia : i ≤ a.num.length) :
    ltLoop x a i = if x.sign = 1 then decide (natVal (x.num.take i) < natVal (a.num.take i))
      else decide (natVal (x.num.take i) > natVal (a.num.take i)) := by
  induction i with
  | zero => simp [ltLoop, natVal]
  | succ i ih =>
    have ih := ih (by omega) (by omega)
    have hxd := isDigit_getD hx i (by omega)
    have had := isDigit_getD ha i (by omega)
    have hxl := @natVal_lt (x.num.take i) (fun c hc => hx c (List.mem_of_mem_take hc))
    have hal := @natVal_lt (a.num.take i) (fun c hc => ha c (List.mem_of_mem_take hc))
    have hx0 := @natVal_nonneg (x.num.take i) (fun c hc => hx c (List.mem_of_mem_take hc))
    have ha0 := @natVal_nonneg (a.num.take i) (fun c hc => ha c (List.mem_of_mem_take hc))
    rw [List.length_take, Nat.min_eq_left (by omega)] at hxl hal
    rw [natVal_take_succ _ i (by omega), natVal_take_succ _ i (by omega)]
    have hp : (0:Int) < 10 ^ i := by positivity
    generalize (10:Int) ^ i = p at *
    generalize natVal (List.take i x.num) = u at *
    generalize natVal (List.take i a.num) = v at *
    unfold ltLoop
    by_cases hc : x.num.getD i nul = a.num.getD i nul
    · rw [if_neg (by simpa using hc), ih, hc]
      simp
    · rw [if_pos hc]
      have hne : digitVal (x.num.getD i nul) ≠ digitVal (a.num.getD i nul) :=
        fun h => hc (digitVal_inj h)
      have hdx : digitVal (x.num.getD i nul) = ((x.num.getD i nul).toNat : Int) - 48 := rfl
      have hda : digitVal (a.num.getD i nul) = ((a.num.getD i nul).toNat : Int) - 48 := rfl
      generalize digitVal (x.num.getD i nul) = dx at *
      generalize digitVal (a.num.getD i nul) = da at *
      have key : (x.num.getD i nul).toNat < (a.num.getD i nul).toNat ↔ u + p * dx < v + p * da := by
        constructor
        · intro h
          have : dx + 1 ≤ da := by omega
          nlinarith
        · intro h
          by_contra hcon
          have : da + 1 ≤ dx := by omega
          nlinarith
      have key2 : (x.num.getD i nul).toNat > (a.num.getD i nul).toNat ↔ u + p * dx > v + p * da := by
        constructor
        · intro h
          have : da + 1 ≤ dx := by omega
          nlinarith
        · intro h
          by_contra hcon
          have : dx + 1 ≤ da := by omega
          nlinarith
      split
      · exact decide_eq_decide.2 key
      · exact decide_eq_decide.2 key2

/-- On canonical values of equal sign, `operator<` compares magnitudes: upward for
sign `+1`, downward for sign `-1`. -/
theorem lt_same_sign {x a : BigInt} (hx : Canonical x) (ha : Canonical a)
    (hs : x.sign = a.sign) :
    x.lt a = if x.sign = 1 then decide (natVal x.num < natVal a.num)
      else decide (natVal x.num > natVal a.num) := by
  unfold BigInt.lt
  rw [if_neg (by simpa using hs)]
  have hxl := natVal_lt hx.1.2.2
  have hal := natVal_lt ha.1.2.2
  have hxpos : 0 < x.num.length := List.length_pos.2 hx.1.2.1
  have hapos : 0 < a.num.length := List.length_pos.2 ha.1.2.1
  by_cases hlen : x.num.length = a.num.length
  · rw [if_neg (by simpa using hlen)]
    have := ltLoop_eq x a hx.1.2.2 ha.1.2.2 x.num.length le_rfl (by omega)
    rw [List.take_length, hlen, List.take_length] at this
    rw [BigInt.digits, hlen, ← hlen]; rw [← hlen] at this; exact this
  · rw [if_pos hlen]
    rcases Nat.lt_or_gt_of_ne hlen with h | h
    · have hnz : a.num ≠ ['0'] := by
        intro h0
        have : a.num.length = 1 := by rw [h0]; rfl
        omega
      have hge := ha.natVal_ge hnz
      have hpow : (10:Int) ^ x.num.length ≤ 10 ^ (a.num.length - 1) :=
        pow_le_pow_right₀ (by norm_num) (by omega)
      have h1 : natVal x.num < natVal a.num := by omega
      have h2 : ¬ natVal x.num > natVal a.num := by omega
      simp [h, h1, h2, Nat.lt_asymm h]
    · have hnz : x.num ≠ ['0'] := by
        intro h0
        have : x.num.length = 1 := by rw [h0]; rfl
        omega
      have hge := hx.natVal_ge hnz
      have hpow : (10:Int) ^ a.num.length ≤ 10 ^ (x.num.length - 1) :=
        pow_le_pow_right₀ (by norm_num) (by omega)
      have h1 : ¬ natVal x.num < natVal a.num := by omega
      have h2 : natVal x.num > natVal a.num := by omega
      simp [h, h1, h2, Nat.lt_asymm h]

/-! ## The digit loops of `operator+` and `operator-` -/

theorem isDigit_tail {l : List Char} (h : ∀ ch ∈ l, IsDigit ch) : ∀ ch ∈ l.tail, IsDigit ch :=
  fun ch hch => h ch (List.mem_of_mem_tail hch)

theorem addend_spec {xs : List Char} (hx : ∀ ch ∈ xs, IsDigit ch) :
    0 ≤ addend xs ∧ addend xs ≤ 9 ∧ natVal xs = addend xs + 10 * natVal xs.tail ∧
      (xs = [] → addend xs = 0) := by
  cases xs with
  | nil => simp [natVal, addend]
  | cons c cs =>
    have := hx c (List.mem_cons_self _ _)
    exact ⟨this.digitVal_nonneg, this.digitVal_le, rfl, by simp⟩

theorem subtrahend_spec {as : List Char} (ha : ∀ ch ∈ as, IsDigit ch) (n : Nat) :
    48 ≤ subtrahend as ∧ subtrahend as ≤ 57 ∧
      natVal (as.take (n + 1)) = (subtrahend as - 48) + 10 * natVal (as.tail.take n) := by
  cases as with
  | nil => simp [natVal, subtrahend]
  | cons e es =>
    have := ha e (List.mem_cons_self _ _)
    unfold IsDigit at this
    refine ⟨by simp only [subtrahend]; omega, by simp only [subtrahend]; omega, ?_⟩
    simp [natVal, digitVal, subtrahend]

/-- The carry loop of `operator+` on digit strings: it ends, and the digits it produced
denote the sum of the two operands and the incoming carry. -/
theorem addLoop_ok (fuel : Nat) : ∀ (xs as : List Char) (carry : Int),
    (∀ ch ∈ xs, IsDigit ch) → (∀ ch ∈ as, IsDigit ch) → 0 ≤ carry → carry ≤ 1 →
    2 * ((xs.length : Int) + as.length) + carry + 1 ≤ fuel →
    ∃ r, addLoop fuel xs as carry = .ok r ∧ natVal r = natVal xs + natVal as + carry ∧
      (∀ ch ∈ r, IsDigit ch) ∧ ((xs ≠ [] ∨ as ≠ []) → r ≠ []) := by
  induction fuel with
  | zero => intro xs as carry _ _ h0 _ hf; omega
  | succ fuel ih =>
    intro xs as carry hx ha h0 h1 hf
    rw [addLoop]
    by_cases hcond : xs ≠ [] ∨ as ≠ [] ∨ carry ≠ 0
    · rw [if_pos hcond]
      have hdx := addend_spec hx
      have hda := addend_spec ha
      generalize addend xs = dx at hdx
      generalize addend as = da at hda
      have e1 : (carry + dx + da).tdiv 10 = (carry + dx + da) / 10 :=
        Int.tdiv_eq_ediv (by omega) (by norm_num)
      have e2 : (carry + dx + da).tmod 10 = (carry + dx + da) % 10 :=
        Int.tmod_eq_emod (by omega) (by norm_num)
      have hlen : 2 * ((xs.tail.length : Int) + as.tail.length) + (carry + dx + da).tdiv 10 + 1
          ≤ fuel := by
        rw [e1]
        cases xs with
        | nil =>
          cases as with
          | nil =>
            have : carry ≠ 0 := by simpa using hcond
            have := hdx.2.2.2 rfl
            have := hda.2.2.2 rfl
            simp at hf ⊢; omega
          | cons _ _ => simp at hf ⊢; omega
        | cons _ _ => simp at hf ⊢; omega
      obtain ⟨r, hr, hv, hd, _⟩ := ih xs.tail as.tail ((carry + dx + da).tdiv 10)
        (isDigit_tail hx) (isDigit_tail ha) (by omega) (by omega) hlen
      refine ⟨toChar ((carry + dx + da).tmod 10 + 48) :: r, ?_, ?_, ?_, fun _ => by simp⟩
      · simp only [hr]
      · simp only [natVal]
        rw [digitVal_toChar _ (by omega) (by omega), hv]
        omega
      · intro ch hch
        rcases List.mem_cons.1 hch with rfl | hch
        · exact isDigit_toChar _ (by omega) (by omega)
        · exact hd ch hch
    · rw [if_neg hcond]
      have hxs : xs = [] := by by_contra h; exact hcond (Or.inl h)
      have has : as = [] := by by_contra h; exact hcond (Or.inr (Or.inl h))
      have hc : carry = 0 := by by_contra h; exact hcond (Or.inr (Or.inr h))
      subst hxs has hc
      exact ⟨[], rfl, by simp [natVal], by simp, by simp⟩

/-- The borrow loop of `operator-` on digit strings: one output digit per digit of the
minuend, and the digits together with the outgoing borrow balance the subtraction. -/
theorem subLoop_ok : ∀ (xs as : List Char) (borrow : Int),
    (∀ ch ∈ xs, IsDigit ch) → (∀ ch ∈ as, IsDigit ch) → 0 ≤ borrow → borrow ≤ 1 →
    (subLoop xs as borrow).1.length = xs.length ∧
    (∀ ch ∈ (subLoop xs as borrow).1, IsDigit ch) ∧
    0 ≤ (subLoop xs as borrow).2 ∧ (subLoop xs as borrow).2 ≤ 1 ∧
    natVal (subLoop xs as borrow).1 - 10 ^ xs.length * (subLoop xs as borrow).2 =
      natVal xs - natVal (as.take xs.length) - borrow := by
  intro xs
  induction xs with
  | nil => intro as borrow _ _ h0 h1; simp [subLoop, natVal, h0, h1]
  | cons c cs ih =>
    intro as borrow hx ha h0 h1
    have hc := hx c (List.mem_cons_self _ _)
    have hcs : ∀ ch ∈ cs, IsDigit ch := fun ch h => hx ch (List.mem_cons_of_mem _ h)
    have hda := subtrahend_spec ha cs.length
    rw [subLoop]
    generalize subtrahend as = da at hda
    have hcv : digitVal c = (c.toNat : Int) - 48 := rfl
    have hcd := hc
    unfold IsDigit at hcd
    by_cases hb : (c.toNat : Int) - borrow - da ≥ 0
    · simp only [hb, if_true]
      obtain ⟨i1, i2, i3, i4, i5⟩ := ih as.tail 0 hcs (isDigit_tail ha) le_rfl (by norm_num)
      refine ⟨by simp [i1], ?_, i3, i4, ?_⟩
      · intro ch hch
        rcases List.mem_cons.1 hch with rfl | hch
        · exact isDigit_toChar ((c.toNat : Int) - borrow - da) (by omega) (by omega)
        · exact i2 ch hch
      · simp only [natVal, List.length_cons, pow_succ]
        rw [digitVal_toChar _ (by omega) (by omega), hda.2.2, hcv]
        linarith
    · simp only [hb, if_false]
      obtain ⟨i1, i2, i3, i4, i5⟩ := ih as.tail 1 hcs (isDigit_tail ha) (by norm_num) le_rfl
      have e : (c.toNat : Int) - borrow - da + 58 = ((c.toNat : Int) - borrow - da + 10) + 48 := by
        ring
      rw [e]
      refine ⟨by simp [i1], ?_, i3, i4, ?_⟩
      · intro ch hch
        rcases List.mem_cons.1 hch with rfl | hch
        · exact isDigit_toChar ((c.toNat : Int) - borrow - da + 10) (by omega) (by omega)
        · exact i2 ch hch
      · simp only [natVal, List.length_cons, pow_succ]
        rw [digitVal_toChar _ (by omega) (by omega), hda.2.2, hcv]
        linarith

/-! ## `operator+` and `operator-` -/

theorem abs_canonical {x : BigInt} (hx : WellFormed x) : Canonical x.abs :=
  normalize_canonical (Or.inl rfl) hx.2.1 hx.2.2

theorem abs_sign (x : BigInt) : x.abs.sign = 1 := by
  unfold BigInt.abs; rw [normalize_sign]; simp

theorem abs_natVal (x : BigInt) : natVal x.abs.num = natVal x.num :=
  (normalize_stripped x 1).value

theorem abs_lt_abs {x a : BigInt} (hx : WellFormed x) (ha : WellFormed a) :
    x.abs.lt a.abs = decide (natVal x.num < natVal a.num) := by
  rw [lt_same_sign (abs_canonical hx) (abs_canonical ha) (by rw [abs_sign, abs_sign]),
    if_pos (abs_sign x), abs_natVal, abs_natVal]

theorem neg_wellFormed {a : BigInt} (ha : WellFormed a) : WellFormed a.neg := by
  obtain ⟨hs, hne, hd⟩ := ha
  refine ⟨?_, hne, hd⟩
  show a.sign * -1 = 1 ∨ a.sign * -1 = -1
  omega

theorem neg_val (a : BigInt) : val a.neg = - val a := by
  show a.sign * -1 * natVal a.num = -(a.sign * natVal a.num)
  ring

theorem neg_sign (a : BigInt) : a.neg.sign = - a.sign := by
  show a.sign * -1 = - a.sign
  ring

theorem neg_num (a : BigInt) : a.neg.num = a.num := rfl

/-- The result of the borrow loop when the minuend is not smaller in magnitude: no
borrow is left, and the normalised digits carry the difference. -/
theorem subLoop_direct {x a : BigInt} (hx : WellFormed x) (ha : WellFormed a)
    (hs : x.sign = a.sign) (hge : natVal a.num ≤ natVal x.num) :
    (subLoop x.num a.num 0).2 = 0 ∧
    Canonical (BigInt.normalize { num := (subLoop x.num a.num 0).1, sign := 1 } x.sign) ∧
    val (BigInt.normalize { num := (subLoop x.num a.num 0).1, sign := 1 } x.sign) =
      val x - val a := by
  obtain ⟨l1, l2, l3, l4, l5⟩ := subLoop_ok x.num a.num 0 hx.2.2 ha.2.2 le_rfl (by norm_num)
  have hxl := natVal_lt hx.2.2
  have hrl := natVal_lt l2
  have hr0 := natVal_nonneg l2
  have ha0 := natVal_nonneg ha.2.2
  rw [l1] at hrl
  -- the digits of `a` beyond the length of `x` are all zero
  have htake : natVal (a.num.take x.num.length) = natVal a.num := by
    have hsplit := natVal_append (a.num.take x.num.length) (a.num.drop x.num.length)
    rw [List.take_append_drop] at hsplit
    have hd0 := @natVal_nonneg (a.num.drop x.num.length)
      (fun c hc => ha.2.2 c (List.mem_of_mem_drop hc))
    have ht0 := @natVal_nonneg (a.num.take x.num.length)
      (fun c hc => ha.2.2 c (List.mem_of_mem_take hc))
    by_cases hlen : x.num.length ≤ a.num.length
    · rw [List.length_take, Nat.min_eq_left hlen] at hsplit
      have hp : (0:Int) < 10 ^ x.num.length := by positivity
      have : natVal (a.num.drop x.num.length) = 0 := by
        by_contra hne
        have : 1 ≤ natVal (a.num.drop x.num.length) := by omega
        nlinarith
      rw [hsplit, this]; ring
    · rw [List.take_of_length_le (by omega)]
  rw [htake] at l5
  have hp : (0:Int) < 10 ^ x.num.length := by positivity
  have hb0 : (subLoop x.num a.num 0).2 = 0 := by
    by_contra hne
    have : (subLoop x.num a.num 0).2 = 1 := by omega
    rw [this] at l5
    omega
  have hne : (subLoop x.num a.num 0).1 ≠ [] := by
    intro h
    have := hx.2.1
    rw [h] at l1
    exact this (List.length_eq_zero.1 l1.symm)
  refine ⟨hb0, normalize_canonical hx.1 hne l2, ?_⟩
  rw [normalize_val]
  show x.sign * natVal (subLoop x.num a.num 0).1 = x.sign * natVal x.num - a.sign * natVal a.num
  rw [hb0] at l5
  rw [← hs]
  have : natVal (subLoop x.num a.num 0).1 = natVal x.num - natVal a.num := by linarith
  rw [this]; ring

theorem sub_same_ge {x a : BigInt} (hx : WellFormed x) (ha : WellFormed a)
    (hs : x.sign = a.sign) (hge : natVal a.num ≤ natVal x.num) (fuel : Nat) (hf : 1 ≤ fuel) :
    sub fuel x a = .ok (BigInt.normalize { num := (subLoop x.num a.num 0).1, sign := 1 } x.sign) := by
  obtain ⟨f, rfl⟩ : ∃ f, fuel = f + 1 := ⟨fuel - 1, by omega⟩
  rw [sub, if_neg (by simpa using hs)]
  simp only [abs_lt_abs hx ha]
  rw [if_neg (by simpa using hge)]

theorem sub_same {x a : BigInt} (hx : WellFormed x) (ha : WellFormed a)
    (hs : x.sign = a.sign) (fuel : Nat) (hf : 2 ≤ fuel) :
    ∃ r, sub fuel x a = .ok r ∧ Canonical r ∧ val r = val x - val a := by
  by_cases hge : natVal a.num ≤ natVal x.num
  · exact ⟨_, sub_same_ge hx ha hs hge fuel (by omega), (subLoop_direct hx ha hs hge).2⟩
  · obtain ⟨f, rfl⟩ : ∃ f, fuel = f + 1 := ⟨fuel - 1, by omega⟩
    have hxa := (abs_canonical hx).wellFormed
    have haa := (abs_canonical ha).wellFormed
    have hss : a.abs.sign = x.abs.sign := by rw [abs_sign, abs_sign]
    have hge2 : natVal x.abs.num ≤ natVal a.abs.num := by rw [abs_natVal, abs_natVal]; omega
    have hrec := sub_same_ge haa hxa hss hge2 f (by omega)
    obtain ⟨_, hcan, hval⟩ := subLoop_direct haa hxa hss hge2
    rw [sub, if_neg (by simpa using hs)]
    simp only [abs_lt_abs hx ha]
    rw [if_pos (by simpa using hge), hrec]
    generalize BigInt.normalize { num := (subLoop a.abs.num x.abs.num 0).1, sign := 1 } a.abs.sign
      = t at hcan hval
    have hsgn : -x.sign = 1 ∨ -x.sign = -1 := by have := hx.1; omega
    refine ⟨_, rfl, normalize_canonical hsgn hcan.1.2.1 hcan.1.2.2, ?_⟩
    rw [normalize_val]
    show -x.sign * natVal t.num = _
    have ht : val t = t.sign * natVal t.num := rfl
    have hts : natVal t.num = natVal a.num - natVal x.num := by
      have h1 : val a.abs = natVal a.num := by
        show a.abs.sign * natVal a.abs.num = _
        rw [abs_sign, abs_natVal]; ring
      have h2 : val x.abs = natVal x.num := by
        show x.abs.sign * natVal x.abs.num = _
        rw [abs_sign, abs_natVal]; ring
      rw [h1, h2] at hval
      -- `t` is a canonical value with a non-negative value, hence its sign does not matter
      rcases hcan.1.1 with h | h
      · rw [ht, h] at hval; linarith
      · have hnn := natVal_nonneg hcan.1.2.2
        rw [ht, h] at hval
        have hz : natVal t.num = 0 := by omega
        have := hcan.2.2 (hcan.num_eq_zero_iff.1 hz)
        omega
    rw [hts]
    show _ = x.sign * natVal x.num - a.sign * natVal a.num
    rw [← hs]; ring

theorem add_same {x a : BigInt} (hx : WellFormed x) (ha : WellFormed a)
    (hs : x.sign = a.sign) (fuel : Nat) (hf : 2 * (x.num.length + a.num.length) + 2 ≤ fuel) :
    ∃ r, add fuel x a = .ok r ∧ Canonical r ∧ val r = val x + val a := by
  obtain ⟨f, rfl⟩ : ∃ f, fuel = f + 1 := ⟨fuel - 1, by omega⟩
  obtain ⟨c, hc, hv, hd, hne⟩ := addLoop_ok f x.num a.num 0 hx.2.2 ha.2.2 le_rfl (by norm_num)
    (by omega)
  rw [add, if_neg (by simpa using hs), hc]
  refine ⟨_, rfl, normalize_canonical hx.1 (hne (Or.inl hx.2.1)) hd, ?_⟩
  rw [normalize_val]
  show x.sign * natVal c = x.sign * natVal x.num + a.sign * natVal a.num
  rw [hv, ← hs]; ring

/-- `operator+` on well-formed operands returns the canonical sum. -/
theorem add_ok {x a : BigInt} (hx : WellFormed x) (ha : WellFormed a) (fuel : Nat)
    (hf : addFuel x a ≤ fuel) :
    ∃ r, add fuel x a = .ok r ∧ Canonical r ∧ val r = val x + val a := by
  unfold addFuel at hf
  by_cases hs : x.sign = a.sign
  · exact add_same hx ha hs fuel (by omega)
  · obtain ⟨f, rfl⟩ : ∃ f, fuel = f + 1 := ⟨fuel - 1, by omega⟩
    have hsn : x.sign = a.neg.sign := by
      rw [neg_sign]; have := hx.1; have := ha.1; omega
    obtain ⟨r, hr, hc, hv⟩ := sub_same hx (neg_wellFormed ha) hsn f (by omega)
    rw [add, if_pos hs]
    exact ⟨r, hr, hc, by rw [hv, neg_val]; ring⟩

/-- `operator-` on well-formed operands returns the canonical difference. -/
theorem sub_ok {x a : BigInt} (hx : WellFormed x) (ha : WellFormed a) (fuel : Nat)
    (hf : addFuel x a ≤ fuel) :
    ∃ r, sub fuel x a = .ok r ∧ Canonical r ∧ val r = val x - val a := by
  unfold addFuel at hf
  by_cases hs : x.sign = a.sign
  · exact sub_same hx ha hs fuel (by omega)
  · obtain ⟨f, rfl⟩ : ∃ f, fuel = f + 1 := ⟨fuel - 1, by omega⟩
    have hsn : x.sign = a.neg.sign := by
      rw [neg_sign]; have := hx.1; have := ha.1; omega
    obtain ⟨r, hr, hc, hv⟩ := add_same hx (neg_wellFormed ha) hsn f (by rw [neg_num]; omega)
    rw [sub, if_pos hs]
    exact ⟨r, hr, hc, by rw [hv, neg_val]; ring⟩

/-! ## Uniqueness of the canonical representation -/

/-- Digit strings of equal length and equal value are equal. -/
theorem natVal_inj_of_length : ∀ (xs ys : List Char), (∀ ch ∈ xs, IsDigit ch) →
    (∀ ch ∈ ys, IsDigit ch) → xs.length = ys.length → natVal xs = natVal ys → xs = ys := by
  intro xs
  induction xs with
  | nil => intro ys _ _ hl _; exact (List.length_eq_zero.1 hl.symm).symm
  | cons c cs ih =>
    intro ys hx hy hl hv
    cases ys with
    | nil => simp at hl
    | cons d ds =>
      have hc := hx c (List.mem_cons_self _ _)
      have hd := hy d (List.mem_cons_self _ _)
      have h1 := hc.digitVal_nonneg
      have h2 := hc.digitVal_le
      have h3 := hd.digitVal_nonneg
      have h4 := hd.digitVal_le
      simp only [natVal] at hv
      have e1 : digitVal c = digitVal d := by omega
      have e2 : natVal cs = natVal ds := by omega
      rw [digitVal_inj e1, ih ds (fun ch h => hx ch (List.mem_cons_of_mem _ h))
        (fun ch h => hy ch (List.mem_cons_of_mem _ h)) (by simpa using hl) e2]

theorem Canonical.length_le_of_natVal_le {x y : BigInt} (hx : Canonical x) (hy : Canonical y)
    (h : natVal x.num ≤ natVal y.num) : x.num.length ≤ y.num.length := by
  by_contra hlt
  have hyl := natVal_lt hy.1.2.2
  have hypos : 0 < y.num.length := List.length_pos.2 hy.1.2.1
  have hnz : x.num ≠ ['0'] := by
    intro h0
    have : x.num.length = 1 := by rw [h0]; rfl
    omega
  have hge := hx.natVal_ge hnz
  have hpow : (10:Int) ^ y.num.length ≤ 10 ^ (x.num.length - 1) :=
    pow_le_pow_right₀ (by norm_num) (by omega)
  omega

/-- Canonical values are determined by the integer they denote. -/
theorem canonical_ext {x y : BigInt} (hx : Canonical x) (hy : Canonical y)
    (h : val x = val y) : x = y := by
  have hx0 := natVal_nonneg hx.1.2.2
  have hy0 := natVal_nonneg hy.1.2.2
  have hnum : natVal x.num = natVal y.num ∧ x.sign = y.sign := by
    unfold val at h
    by_cases hz : natVal x.num = 0
    · have hxs := hx.2.2 (hx.num_eq_zero_iff.1 hz)
      rw [hz] at h
      have hyz : natVal y.num = 0 := by
        rcases hy.1.1 with hs | hs <;> rw [hs] at h <;> omega
      have hys := hy.2.2 (hy.num_eq_zero_iff.1 hyz)
      exact ⟨by rw [hz, hyz], by rw [hxs, hys]⟩
    · rcases hx.1.1 with hs | hs <;> rcases hy.1.1 with ht | ht <;> rw [hs, ht] at h
      · exact ⟨by omega, by rw [hs, ht]⟩
      · omega
      · omega
      · exact ⟨by omega, by rw [hs, ht]⟩
  have hlen : x.num.length = y.num.length :=
    Nat.le_antisymm (hx.length_le_of_natVal_le hy (le_of_eq hnum.1))
      (hy.length_le_of_natVal_le hx (le_of_eq hnum.1.symm))
  have := natVal_inj_of_length x.num y.num hx.1.2.2 hy.1.2.2 hlen hnum.1
  cases x; cases y
  simp only [BigInt.mk.injEq]
  exact ⟨this, hnum.2⟩

theorem Returns.unique {α : Type} {f : Nat → Except Fault α} {r s : α}
    (hr : Returns f r) (hs : Returns f s) : r = s := by
  obtain ⟨N, hN⟩ := hr
  obtain ⟨M, hM⟩ := hs
  have h1 := hN (max N M) (le_max_left _ _)
  have h2 := hM (max N M) (le_max_right _ _)
  rw [h1] at h2
  exact Except.ok.inj h2

/-- `operator+` on well-formed operands: one canonical result for all large fuels. -/
theorem add_returns {x a : BigInt} (hx : WellFormed x) (ha : WellFormed a) :
    ∃ r, Returns (fun fuel => add fuel x a) r ∧ Canonical r ∧ val r = val x + val a := by
  obtain ⟨r, _, hc, hv⟩ := add_ok hx ha (addFuel x a) le_rfl
  refine ⟨r, ⟨addFuel x a, fun fuel hf => ?_⟩, hc, hv⟩
  obtain ⟨r1, hr1, hc1, hv1⟩ := add_ok hx ha fuel hf
  show add fuel x a = _
  rw [hr1, canonical_ext hc1 hc (by rw [hv1, hv])]

/-- `operator-` on well-formed operands: one canonical result for all large fuels. -/
theorem sub_returns {x a : BigInt} (hx : WellFormed x) (ha : WellFormed a) :
    ∃ r, Returns (fun fuel => sub fuel x a) r ∧ Canonical r ∧ val r = val x - val a := by
  obtain ⟨r, _, hc, hv⟩ := sub_ok hx ha (addFuel x a) le_rfl
  refine ⟨r, ⟨addFuel x a, fun fuel hf => ?_⟩, hc, hv⟩
  obtain ⟨r1, hr1, hc1, hv1⟩ := sub_ok hx ha fuel hf
  show sub fuel x a = _
  rw [hr1, canonical_ext hc1 hc (by rw [hv1, hv])]

/-! ## Claims on addition and subtraction -/

theorem abs_val {x : BigInt} (hx : WellFormed x) : val x.abs = |val x| := by
  have h0 := natVal_nonneg hx.2.2
  show x.abs.sign * natVal x.abs.num = |x.sign * natVal x.num|
  rw [abs_sign, abs_natVal]
  rcases hx.1 with h | h <;> rw [h]
  · rw [one_mul, abs_of_nonneg h0]
  · rw [one_mul, neg_one_mul, abs_neg, abs_of_nonneg h0]

/-- C4: addition is exact.  For canonical `a` and `b` of any signs, `a + b` returns a
value `r` with `val r = val a + val b`; and `23 + 55555555555555555555555555555555555555555557777777777`
prints as `55555555555555555555555555555555555555555557777777800`. -/
theorem add_exact (a b : BigInt) (ha : Canonical a) (hb : Canonical b) :
    (∃ r, Returns (fun fuel => add fuel a b) r ∧ val r = val a + val b) ∧
    (∃ r, Returns (fun fuel => add fuel (assignString "23".toList)
        (assignString "55555555555555555555555555555555555555555557777777777".toList)) r ∧
      output r = "55555555555555555555555555555555555555555557777777800".toList) := by
  constructor
  · obtain ⟨r, hr, _, hv⟩ := add_returns ha.1 hb.1
    exact ⟨r, hr, hv⟩
  · have h1 : Canonical (assignString "23".toList) := by decide
    have h2 : Canonical
        (assignString "55555555555555555555555555555555555555555557777777777".toList) := by
      decide
    obtain ⟨r, hr, hc, hv⟩ := add_returns h1.1 h2.1
    refine ⟨r, hr, ?_⟩
    have h3 : Canonical
        (assignString "55555555555555555555555555555555555555555557777777800".toList) := by
      decide
    have h4 : val (assignString "55555555555555555555555555555555555555555557777777800".toList)
        = val (assignString "23".toList) +
          val (assignString "55555555555555555555555555555555555555555557777777777".toList) := by
      decide!
    rw [canonical_ext hc h3 (by rw [hv, h4])]
    decide

/-- Instance of `add_exact`: `-97 + 105`. -/
theorem add_exact_witness :
    Canonical ⟨['7', '9'], -1⟩ ∧ Canonical ⟨['5', '0', '1'], 1⟩ ∧
    ∃ r, Returns (fun fuel => add fuel ⟨['7', '9'], -1⟩ ⟨['5', '0', '1'], 1⟩) r ∧
      val r = val ⟨['7', '9'], -1⟩ + val ⟨['5', '0', '1'], 1⟩ :=
  ⟨by decide, by decide, (add_exact ⟨['7', '9'], -1⟩ ⟨['5', '0', '1'], 1⟩ (by decide) (by decide)).1⟩

/-- C5: subtraction is exact.  For canonical `a` and `b`, `a - b` returns a value `r`
with `val r = val a - val b`.  When the signs agree and `|a| < |b|`, `r` is obtained
from `t = |b| - |a|` by `inverseSign` and `normalize(-sign)`, and its sign is the sign
of the true difference; when the signs agree and `|a| < |b|` fails, the borrow loop
over the digits of `a` and `b` ends with borrow `0`, as does the borrow loop that
computes `|b| - |a|` in the first case. -/
theorem sub_exact (a b : BigInt) (ha : Canonical a) (hb : Canonical b) :
    ∃ r, Returns (fun fuel => sub fuel a b) r ∧ val r = val a - val b ∧
      (a.sign = b.sign → a.abs.lt b.abs = true →
        ∃ t, Returns (fun fuel => sub fuel b.abs a.abs) t ∧ val t = |val b| - |val a| ∧
          r = t.inverseSign.normalize (-a.sign) ∧ r.sign = Int.sign (val a - val b) ∧
          (subLoop b.abs.num a.abs.num 0).2 = 0) ∧
      (a.sign = b.sign → a.abs.lt b.abs = false → (subLoop a.num b.num 0).2 = 0) := by
  obtain ⟨r, hr, hc, hv⟩ := sub_returns ha.1 hb.1
  refine ⟨r, hr, hv, ?_, ?_⟩
  · intro hs hlt
    have hlt2 : natVal a.num < natVal b.num := by
      rw [abs_lt_abs ha.1 hb.1] at hlt; simpa using hlt
    have haa := (abs_canonical ha.1).wellFormed
    have hba := (abs_canonical hb.1).wellFormed
    have hss : b.abs.sign = a.abs.sign := by rw [abs_sign, abs_sign]
    have hge2 : natVal a.abs.num ≤ natVal b.abs.num := by rw [abs_natVal, abs_natVal]; omega
    obtain ⟨t, ht, htc, htv⟩ := sub_returns hba haa
    obtain ⟨hb0, _, _⟩ := subLoop_direct hba haa hss hge2
    refine ⟨t, ht, by rw [htv, abs_val hb.1, abs_val ha.1], ?_, ?_, hb0⟩
    · -- unfold one call of `operator-` at a large fuel
      obtain ⟨N, hN⟩ := hr
      obtain ⟨M, hM⟩ := ht
      have h1 := hN (max N M + 1) (by omega)
      have h2 := hM (max N M) (le_max_right _ _)
      simp only at h1 h2
      rw [sub, if_neg (by simpa using hs)] at h1
      simp only [hlt, if_true, h2] at h1
      exact (Except.ok.inj h1).symm
    · have hne : val a - val b ≠ 0 := by
        unfold val; rw [← hs]
        rcases ha.1.1 with h | h <;> rw [h] <;> omega
      have hrs : r.sign = 1 ∨ r.sign = -1 := hc.1.1
      have hr0 := natVal_nonneg hc.1.2.2
      have hrv : r.sign * natVal r.num = val a - val b := hv
      rcases hrs with h | h
      · rw [h] at hrv ⊢
        have : 0 < val a - val b := by omega
        rw [Int.sign_eq_one_of_pos this]
      · rw [h] at hrv ⊢
        have : val a - val b < 0 := by omega
        rw [Int.sign_eq_neg_one_of_neg this]
  · intro hs hlt
    have hge : natVal b.num ≤ natVal a.num := by
      rw [abs_lt_abs ha.1 hb.1] at hlt; simpa using hlt
    exact (subLoop_direct ha.1 hb.1 hs hge).1

/-- Instance of `sub_exact`: `97 - 105`, the branch that swaps the operands. -/
theorem sub_exact_witness :
    Canonical ⟨['7', '9'], 1⟩ ∧ Canonical ⟨['5', '0', '1'], 1⟩ ∧
    ∃ r, Returns (fun fuel => sub fuel ⟨['7', '9'], 1⟩ ⟨['5', '0', '1'], 1⟩) r ∧
      val r = val ⟨['7', '9'], 1⟩ - val ⟨['5', '0', '1'], 1⟩ := by
  obtain ⟨r, h1, h2, _⟩ := sub_exact ⟨['7', '9'], 1⟩ ⟨['5', '0', '1'], 1⟩ (by decide) (by decide)
  exact ⟨by decide, by decide, r, h1, h2⟩

/-! ## Text to value: `operator=(std::string)` -/

/-- Erasing from the first dot keeps the characters before the first dot. -/
theorem eraseDot_eq_takeWhile (t : List Char) :
    eraseFrom t (findDot t) = t.takeWhile (fun ch => decide (ch ≠ '.')) := by
  induction t with
  | nil => simp [findDot, eraseFrom]
  | cons c cs ih =>
    unfold findDot
    by_cases hc : c = '.'
    · simp [hc, eraseFrom]
    · rw [if_neg hc, List.takeWhile_cons_of_pos (by simpa using hc), ← ih]
      cases findDot cs <;> simp [eraseFrom]

theorem getD_zero_eq_minus (s : List Char) : s.getD 0 nul = '-' ↔ s.head? = some '-' := by
  cases s with
  | nil => simp [nul]
  | cons c cs => simp

theorem drop_one_eq_tail (s : List Char) : s.drop 1 = s.tail := by
  cases s <;> rfl

/-- The digit string and the sign that `operator=(std::string)` hands to `normalize`. -/
theorem assignString_eq (s : List Char) :
    assignString s = BigInt.normalize
      { num := ((unsignedPart s).takeWhile (fun ch => decide (ch ≠ '.'))).reverse, sign := 1 }
      (if s.head? = some '-' then -1 else 1) := by
  unfold assignString unsignedPart
  simp only [getD_zero_eq_minus, drop_one_eq_tail]
  rw [eraseDot_eq_takeWhile]

theorem decimal_append (ds : List Char) (ch : Char) :
    decimal (ds ++ [ch]) = 10 * decimal ds + digitVal ch := by
  simp [decimal, List.foldl_append]

theorem natVal_reverse (ds : List Char) : natVal ds.reverse = decimal ds := by
  induction ds using List.reverseRecOn with
  | nil => rfl
  | append_singleton ds ch ih =>
    rw [List.reverse_append, decimal_append, ← ih]
    simp [natVal]; ring

/-- On a text of the grammar, the characters before the first dot are the digit run. -/
theorem beforeDot_eq_integerPart {s : List Char} (h : wellFormedText s = true) :
    (unsignedPart s).takeWhile (fun ch => decide (ch ≠ '.')) = integerPart s := by
  have hsplit : unsignedPart s = integerPart s ++ fractionPart s :=
    (List.takeWhile_append_dropWhile _ _).symm
  have hdig : ∀ ch ∈ integerPart s, decide (ch ≠ '.') = true := by
    intro ch hch
    have := List.mem_takeWhile_imp hch
    have hd : IsDigit ch := by simpa using this
    have : ch ≠ '.' := by
      rintro rfl
      revert hd; decide
    simpa using this
  unfold wellFormedText at h
  rw [hsplit, List.takeWhile_append_of_pos hdig]
  cases hf : fractionPart s with
  | nil => simp
  | cons c cs =>
    rw [hf] at h
    have hc : c = '.' := by simp at h; exact h.2.1
    simp [hc]

theorem integerPart_spec {s : List Char} (h : wellFormedText s = true) :
    integerPart s ≠ [] ∧ ∀ ch ∈ integerPart s, IsDigit ch := by
  refine ⟨?_, fun ch hch => ?_⟩
  · unfold wellFormedText at h
    simp at h; exact h.1
  · have := List.mem_takeWhile_imp hch
    simpa using this

/-! ## Claims on text input and on negation -/

/-- C3, as stated, fails: texts outside the grammar `['-'] digit+ ['.' digit*]` are
converted to a `BigInt` value all the same; `"abc"` gives the characters `cba` with
sign `+1`, `"12a"` gives `a21`, `"--5"` gives `5-` with sign `-1`, and the empty text,
`"-"` and `".5"` give an empty digit string. -/
theorem parse_malformed_accepted :
    wellFormedText "abc".toList = false ∧ assignString "abc".toList = ⟨['c', 'b', 'a'], 1⟩ ∧
    wellFormedText "12a".toList = false ∧ assignString "12a".toList = ⟨['a', '2', '1'], 1⟩ ∧
    wellFormedText "--5".toList = false ∧ assignString "--5".toList = ⟨['5', '-'], -1⟩ ∧
    wellFormedText "".toList = false ∧ assignString "".toList = ⟨[], 1⟩ ∧
    wellFormedText "-".toList = false ∧ assignString "-".toList = ⟨[], -1⟩ ∧
    wellFormedText ".5".toList = false ∧ assignString ".5".toList = ⟨[], 1⟩ := by
  decide

theorem getLast?_append_zeros (r a : List Char) (hne : a ≠ []) (hz : ∀ ch ∈ a, ch = '0') :
    (r ++ a).getLast? = some '0' := by
  rw [List.getLast?_append_of_ne_nil _ hne, List.getLast?_eq_getLast _ hne,
    hz _ (List.getLast_mem hne)]

/-- A string `xs` has one stripped form only: a string `r` that `xs` extends by `'0'`
characters, that ends in `'0'` only if it is `"0"`, and that is empty only if `xs` is. -/
theorem stripped_unique {xs r t : List Char}
    (hr : ∃ k, xs = r ++ List.replicate k '0') (hrl : r.getLast? = some '0' → r = ['0'])
    (hrn : xs ≠ [] → r ≠ [])
    (ht : ∃ k, xs = t ++ List.replicate k '0') (htl : t.getLast? = some '0' → t = ['0'])
    (htn : xs ≠ [] → t ≠ []) : r = t := by
  have key : ∀ (u v : List Char) (a : List Char) (j : Nat), u = v ++ a → a ≠ [] →
      (∀ ch ∈ a, ch = '0') → xs = u ++ List.replicate j '0' →
      (u.getLast? = some '0' → u = ['0']) → (xs ≠ [] → v ≠ []) → False := by
    intro u v a j huv hane haz hxs hul hvn
    have h1 : u = ['0'] := hul (by rw [huv]; exact getLast?_append_zeros v a hane haz)
    have hxne : xs ≠ [] := by rw [hxs, h1]; simp
    have hv := hvn hxne
    have hlen : (v ++ a).length = 1 := by rw [← huv, h1]; rfl
    have hvl : 0 < v.length := List.length_pos.2 hv
    have hal : 0 < a.length := List.length_pos.2 hane
    rw [List.length_append] at hlen
    omega
  obtain ⟨k, hk⟩ := hr
  obtain ⟨j, hj⟩ := ht
  have heq : r ++ List.replicate k '0' = t ++ List.replicate j '0' := by rw [← hk, ← hj]
  rcases List.append_eq_append_iff.1 heq with ⟨a, h1, h2⟩ | ⟨a, h1, h2⟩
  · -- `t = r ++ a`, where `a` is a run of zeros
    by_cases ha : a = []
    · rw [h1, ha, List.append_nil]
    · exfalso
      have haz : ∀ ch ∈ a, ch = '0' := by
        intro ch hch
        have : ch ∈ List.replicate k '0' := by rw [h2]; exact List.mem_append_left _ hch
        exact (List.mem_replicate.1 this).2
      exact key t r a j h1 ha haz hj htl hrn
  · by_cases ha : a = []
    · rw [h1, ha, List.append_nil]
    · exfalso
      have haz : ∀ ch ∈ a, ch = '0' := by
        intro ch hch
        have : ch ∈ List.replicate j '0' := by rw [h2]; exact List.mem_append_left _ hch
        exact (List.mem_replicate.1 this).2
      exact key r t a k h1 ha haz hk hrl htn

/-- C3, amended: `operator=(std::string)` has no error path: every text `s`, inside the
grammar or not, is converted to a value.  With `kept` the characters of `s` after the
optional leading `'-'` and before the first `'.'`: `kept` reversed is the stored string
followed by the `'0'` characters that `normalize` removed; the stored string ends in
`'0'` only if it is `"0"`; it is empty exactly when `kept` is empty (the last remaining
character is never removed); these three facts determine the stored string; the sign is
`+1` if the stored string is `"0"`, else `-1` when `s` starts with `'-'` and `+1` when
it does not.  So `"0.a"` and `"-00.x"` give `"0"` with sign `+1`. -/
theorem parse_total (s : List Char) :
    (∃ k, ((unsignedPart s).takeWhile (fun ch => decide (ch ≠ '.'))).reverse =
        (assignString s).num ++ List.replicate k '0') ∧
    ((assignString s).num.getLast? = some '0' → (assignString s).num = ['0']) ∧
    ((assignString s).num = [] ↔ (unsignedPart s).takeWhile (fun ch => decide (ch ≠ '.')) = []) ∧
    (∀ r : List Char,
      (∃ k, ((unsignedPart s).takeWhile (fun ch => decide (ch ≠ '.'))).reverse =
        r ++ List.replicate k '0') →
      (r.getLast? = some '0' → r = ['0']) →
      ((unsignedPart s).takeWhile (fun ch => decide (ch ≠ '.')) ≠ [] → r ≠ []) →
      (assignString s).num = r) ∧
    (assignString s).sign =
      (if (assignString s).num = ['0'] then 1 else if s.head? = some '-' then -1 else 1) ∧
    assignString "0.a".toList = ⟨['0'], 1⟩ ∧ assignString "-00.x".toList = ⟨['0'], 1⟩ ∧
    assignString "-0a0".toList = ⟨['0', 'a'], -1⟩ := by
  have he := assignString_eq s
  have hst := normalize_stripped
    { num := ((unsignedPart s).takeWhile (fun ch => decide (ch ≠ '.'))).reverse, sign := 1 }
    (if s.head? = some '-' then -1 else 1)
  have hsg := normalize_sign
    { num := ((unsignedPart s).takeWhile (fun ch => decide (ch ≠ '.'))).reverse, sign := 1 }
    (if s.head? = some '-' then -1 else 1)
  rw [← he] at hst hsg
  refine ⟨hst.zeros, hst.last, ⟨fun h => ?_, fun h => ?_⟩, fun r h1 h2 h3 => ?_, hsg,
    by decide, by decide, by decide⟩
  · by_contra hne
    exact hst.nonempty (by simpa using hne) h
  · have hp := hst.isInit
    simp only [h, List.reverse_nil] at hp
    exact List.prefix_nil.1 hp
  · exact stripped_unique hst.zeros hst.last hst.nonempty h1 h2
      (fun hne => h3 (by simpa using hne))

/-- Instance of `parse_total`: for the text `0.a` the stated facts fix the stored string
as `"0"` (not the empty string). -/
theorem parse_total_witness :
    wellFormedText "0.a".toList = false ∧ (assignString "0.a".toList).num = ['0'] ∧
    (assignString "0.a".toList).sign = 1 :=
  ⟨by decide,
    (parse_total "0.a".toList).2.2.2.1 ['0'] ⟨0, by decide⟩ (fun _ => rfl) (fun _ => by simp),
    by decide⟩

/-- C9: a text `s` of the grammar `['-'] digit+ ['.' digit*]` is converted to a
canonical value whose integer is the one denoted by the digit run before the dot,
negated when `s` starts with `'-'`; the fraction is dropped.  `"007"` and `"7"`, and
`"3.99"` and `"3"`, convert to the same value; `"-0"`, `"-0.5"` and `"-000"` convert
to zero with sign `+1`, printed as `"0"`. -/
theorem parse_wellFormed (s : List Char) (h : wellFormedText s = true) :
    Canonical (assignString s) ∧
    val (assignString s) = (if s.head? = some '-' then -1 else 1) * decimal (integerPart s) ∧
    assignString "007".toList = assignString "7".toList ∧
    assignString "3.99".toList = assignString "3".toList ∧
    assignString "3.99".toList = ⟨['3'], 1⟩ ∧
    assignString "-0".toList = ⟨['0'], 1⟩ ∧ assignString "-0.5".toList = ⟨['0'], 1⟩ ∧
    assignString "-000".toList = ⟨['0'], 1⟩ ∧
    to_string (assignString "-0".toList) = "0".toList := by
  have hspec := integerPart_spec h
  refine ⟨?_, ?_, by decide, by decide, by decide, by decide, by decide, by decide, by decide⟩
  · rw [assignString_eq, beforeDot_eq_integerPart h]
    refine normalize_canonical ?_ (by simpa using hspec.1) ?_
    · split
      · exact Or.inr rfl
      · exact Or.inl rfl
    · intro ch hch
      exact hspec.2 ch (by simpa using hch)
  · rw [assignString_eq, beforeDot_eq_integerPart h, normalize_val]
    show _ * natVal (integerPart s).reverse = _
    rw [natVal_reverse]

/-- Instance of `parse_wellFormed`: the text `-0042.75` denotes `-42`. -/
theorem parse_wellFormed_witness :
    wellFormedText "-0042.75".toList = true ∧ Canonical (assignString "-0042.75".toList) ∧
    val (assignString "-0042.75".toList) = -42 := by
  have h := parse_wellFormed "-0042.75".toList (by decide)
  exact ⟨by decide, h.1, by decide⟩

/-- C7 at the input `BigInt(0)`: unary minus returns the pair (sign `-1`, digits `"0"`).
It is not canonical, it is not `==` to `BigInt(0)`, it is `<` `BigInt(0)`, and it prints
as `"-0"`. -/
theorem neg_zero_is_minus_zero :
    (assignString "0".toList).neg = ⟨['0'], -1⟩ ∧
    ¬ Canonical (assignString "0".toList).neg ∧
    (assignString "0".toList).neg.eq (assignString "0".toList) = false ∧
    (assignString "0".toList).neg.lt (assignString "0".toList) = true ∧
    to_string (assignString "0".toList).neg = "-0".toList ∧
    output (assignString "0".toList).neg = "-0".toList := by
  decide

/-! ## Value to text: `to_string` and `operator<<` -/

theorem digitChar_of_isDigit {ch : Char} (h : IsDigit ch) (d : Nat)
    (hd : (d : Int) = digitVal ch) : Nat.digitChar d = ch := by
  unfold IsDigit at h
  unfold digitVal at hd
  apply char_eq_of_toNat_eq
  have h9 : d ≤ 9 := by omega
  have hc : ch.toNat = d + 48 := by omega
  rw [hc]
  interval_cases d <;> rfl

theorem natVal_pos_of_last : ∀ (L : List Char), (∀ ch ∈ L, IsDigit ch) → L ≠ [] →
    L.getLast? ≠ some '0' → 0 < natVal L := by
  intro L
  induction L with
  | nil => intro _ h; exact absurd rfl h
  | cons c cs ih =>
    intro hd _ hlast
    have hc := hd c (List.mem_cons_self _ _)
    have hcs : ∀ ch ∈ cs, IsDigit ch := fun ch h => hd ch (List.mem_cons_of_mem _ h)
    have h0 := hc.digitVal_nonneg
    simp only [natVal]
    cases cs with
    | nil =>
      have hc0 : c ≠ '0' := by
        intro h; apply hlast; simp [h]
      have hdv : digitVal c ≠ 0 := fun h => hc0 (digitVal_eq_zero h)
      simp only [natVal]; omega
    | cons e es =>
      have hlast2 : (e :: es).getLast? ≠ some '0' := by
        intro h; apply hlast
        rw [List.getLast?_cons_cons]; exact h
      have := ih hcs (by simp) hlast2
      omega

/-- The digit generator that prints a natural number produces, for a digit string with a
non-zero most significant digit, that string from its last character to its first. -/
theorem toDigitsCore_natVal : ∀ (L : List Char), (∀ ch ∈ L, IsDigit ch) → L ≠ [] →
    L.getLast? ≠ some '0' → ∀ (n fuel : Nat) (ds : List Char), (n : Int) = natVal L → n < fuel →
    Nat.toDigitsCore 10 fuel n ds = L.reverse ++ ds := by
  intro L
  induction L with
  | nil => intro _ h; exact absurd rfl h
  | cons c cs ih =>
    intro hd _ hlast n fuel ds hn hf
    have hc := hd c (List.mem_cons_self _ _)
    have hcs : ∀ ch ∈ cs, IsDigit ch := fun ch h => hd ch (List.mem_cons_of_mem _ h)
    have h0 := hc.digitVal_nonneg
    have h9 := hc.digitVal_le
    have hcs0 := natVal_nonneg hcs
    simp only [natVal] at hn
    obtain ⟨f, rfl⟩ : ∃ f, fuel = f + 1 := ⟨fuel - 1, by omega⟩
    have hmod : ((n % 10 : Nat) : Int) = digitVal c := by omega
    have hdiv : ((n / 10 : Nat) : Int) = natVal cs := by omega
    have hch := digitChar_of_isDigit hc (n % 10) hmod
    cases cs with
    | nil =>
      have hc0 : c ≠ '0' := by
        intro h; apply hlast; simp [h]
      have hdv : digitVal c ≠ 0 := fun h => hc0 (digitVal_eq_zero h)
      simp only [natVal] at hdiv hn
      have hz : n / 10 = 0 := by omega
      simp [Nat.toDigitsCore, hz, hch]
    | cons e es =>
      have hlast2 : (e :: es).getLast? ≠ some '0' := by
        intro h; apply hlast
        rw [List.getLast?_cons_cons]; exact h
      have hpos := natVal_pos_of_last (e :: es) hcs (by simp) hlast2
      have hrec := ih hcs (by simp) hlast2 (n / 10) f (c :: ds) hdiv (by omega)
      have hnz : n / 10 ≠ 0 := by omega
      simp only [Nat.toDigitsCore, hnz, if_false, hch, hrec]
      simp

/-- The decimal numeral of the magnitude of a canonical value is its digit string read
from the last character to the first. -/
theorem toDigits_natVal {x : BigInt} (hx : Canonical x) (n : Nat) (hn : (n : Int) = natVal x.num) :
    Nat.toDigits 10 n = x.num.reverse := by
  by_cases hz : x.num = ['0']
  · rw [hz] at hn ⊢
    have : n = 0 := by
      simp [natVal, digitVal_zero] at hn; exact hn
    subst this; rfl
  · have hlast : x.num.getLast? ≠ some '0' := fun h => hz (hx.2.1 h)
    have := toDigitsCore_natVal x.num hx.1.2.2 hx.1.2.1 hlast n (n + 1) [] hn (by omega)
    simpa [Nat.toDigits] using this

theorem to_string_eq (x : BigInt) :
    to_string x = (if x.sign = -1 then ['-'] else []) ++ x.num.reverse := by
  unfold to_string
  split <;> simp

/-- The printed text of a canonical value is the decimal numeral of its integer. -/
theorem to_string_eq_toString {x : BigInt} (hx : Canonical x) :
    String.mk (to_string x) = toString (val x) := by
  have hnn := natVal_nonneg hx.1.2.2
  have hts := to_string_eq x
  obtain ⟨m, hm⟩ := Int.eq_ofNat_of_zero_le hnn
  have hd := toDigits_natVal hx m hm.symm
  rcases hx.1.1 with hs | hs
  · have hv : val x = Int.ofNat m := by unfold val; rw [hs, hm]; simp
    rw [hv, hts, hs]
    show _ = Nat.repr m
    unfold Nat.repr
    rw [hd]; rfl
  · have hm0 : m ≠ 0 := by
      intro h0
      have : natVal x.num = 0 := by rw [hm, h0]; rfl
      have := hx.2.2 (hx.num_eq_zero_iff.1 this)
      omega
    obtain ⟨k, rfl⟩ : ∃ k, m = k + 1 := ⟨m - 1, by omega⟩
    have hv : val x = Int.negSucc k := by
      unfold val; rw [hs, hm]; simp [Int.negSucc_eq]
    rw [hv, hts, hs]
    show _ = "-" ++ Nat.repr (k + 1)
    unfold Nat.repr
    rw [hd]; rfl

/-- C10: for a canonical `x`, `to_string x` is the standard decimal numeral of the
integer `val x` (the text that `toString` gives for that integer): it starts with `'-'`
exactly when `val x < 0`, the digits follow most significant first, there is no leading
zero except in the numeral `"0"`, which has no sign; and `operator<<` writes the same
text. -/
theorem to_string_canonical (x : BigInt) (hx : Canonical x) :
    String.mk (to_string x) = toString (val x) ∧
    output x = to_string x ∧
    ((to_string x).head? = some '-' ↔ val x < 0) ∧
    (to_string x = (if val x < 0 then ['-'] else []) ++ x.num.reverse) ∧
    (x.num.reverse.head? = some '0' → to_string x = ['0']) ∧
    (val x = 0 → to_string x = ['0']) := by
  have hnn := natVal_nonneg hx.1.2.2
  have hneg : x.sign = -1 ↔ val x < 0 := by
    unfold val
    constructor
    · intro hs
      have hnz : natVal x.num ≠ 0 := by
        intro h0
        have := hx.2.2 (hx.num_eq_zero_iff.1 h0)
        omega
      rw [hs]; omega
    · intro hv
      rcases hx.1.1 with hs | hs
      · rw [hs] at hv; omega
      · exact hs
  have hts := to_string_eq x
  have hdig : ∀ ch ∈ x.num.reverse, ch ≠ '-' := by
    intro ch hch
    have hd : IsDigit ch := hx.1.2.2 ch (by simpa using hch)
    rintro rfl
    revert hd; decide
  have hrev : x.num.reverse ≠ [] := by simpa using hx.1.2.1
  have hzero : val x = 0 → to_string x = ['0'] := by
    intro hv
    have hn0 : natVal x.num = 0 := by
      unfold val at hv
      rcases hx.1.1 with hs | hs <;> rw [hs] at hv <;> omega
    have hnum := hx.num_eq_zero_iff.1 hn0
    rw [hts, hx.2.2 hnum, hnum]; rfl
  refine ⟨to_string_eq_toString hx, ?_, ?_, ?_, ?_, hzero⟩
  · unfold output; rw [hts]
  · rw [hts, ← hneg]
    by_cases hs : x.sign = -1
    · simp [hs]
    · simp only [hs, if_false, List.nil_append, iff_false]
      intro hh
      cases hr : x.num.reverse with
      | nil => exact hrev hr
      | cons c cs =>
        rw [hr] at hh hdig
        simp at hh
        exact hdig c (by simp) hh
  · rw [hts]
    by_cases hs : x.sign = -1
    · rw [if_pos hs, if_pos (hneg.1 hs)]
    · rw [if_neg hs, if_neg (fun h => hs (hneg.2 h))]
  · intro hh
    have hl : x.num.getLast? = some '0' := by
      rw [← List.head?_reverse]; exact hh
    have hnum := hx.2.1 hl
    rw [hts, hx.2.2 hnum, hnum]; rfl

/-- Instance of `to_string_canonical`: the value `-123`. -/
theorem to_string_canonical_witness :
    Canonical ⟨['3', '2', '1'], -1⟩ ∧
    String.mk (to_string ⟨['3', '2', '1'], -1⟩) = toString (val ⟨['3', '2', '1'], -1⟩) ∧
    to_string ⟨['3', '2', '1'], -1⟩ = "-123".toList :=
  ⟨by decide, (to_string_canonical ⟨['3', '2', '1'], -1⟩ (by decide)).1, by decide⟩

/-! ## `operator*` -/

theorem assignString_zero : assignString ['0'] = ⟨['0'], 1⟩ := by decide

theorem assignString_one : assignString ['1'] = ⟨['1'], 1⟩ := by decide

theorem canonical_zero : Canonical ⟨['0'], 1⟩ := by decide

theorem canonical_one : Canonical ⟨['1'], 1⟩ := by decide

/-- The loop `while (k--) c = c + a` for a digit `k`: it ends after `k` additions with
`c + k * a`. -/
theorem mulWhile_ok {a : BigInt} (ha : WellFormed a) : ∀ (k : Nat) (c : BigInt), Canonical c →
    ∃ r, (∃ N, ∀ n fuel, N ≤ n → N ≤ fuel → mulWhile n fuel a (k : Int) c = .ok r) ∧
      Canonical r ∧ val r = val c + k * val a := by
  intro k
  induction k with
  | zero =>
    intro c hc
    refine ⟨c, ⟨1, fun n fuel hn _ => ?_⟩, hc, by simp⟩
    obtain ⟨m, rfl⟩ : ∃ m, n = m + 1 := ⟨n - 1, by omega⟩
    simp [mulWhile]
  | succ k ih =>
    intro c hc
    obtain ⟨c1, ⟨N1, h1⟩, hc1, hv1⟩ := add_returns hc.1 ha
    obtain ⟨r, ⟨N2, h2⟩, hr, hv⟩ := ih c1 hc1
    refine ⟨r, ⟨max N1 N2 + 1, fun n fuel hn hf => ?_⟩, hr, ?_⟩
    · obtain ⟨m, rfl⟩ : ∃ m, n = m + 1 := ⟨n - 1, by omega⟩
      have hk : ((k + 1 : Nat) : Int) ≠ 0 := by omega
      have hk1 : ((k + 1 : Nat) : Int) - 1 = (k : Int) := by omega
      have hadd : add fuel c a = .ok c1 := h1 fuel (by omega)
      rw [mulWhile, if_pos hk, hadd, hk1]
      exact h2 m fuel (by omega) (by omega)
    · rw [hv, hv1]; push_cast; ring

/-- The operand `a` after `a.num.insert(a.num.begin(), '0')`. -/
theorem shift_wellFormed {a : BigInt} (ha : WellFormed a) :
    WellFormed { a with num := '0' :: a.num } := by
  refine ⟨ha.1, by simp, ?_⟩
  intro ch hch
  rcases List.mem_cons.1 hch with rfl | h
  · decide
  · exact ha.2.2 ch h

theorem shift_val (a : BigInt) : val { a with num := '0' :: a.num } = 10 * val a := by
  show a.sign * natVal ('0' :: a.num) = 10 * (a.sign * natVal a.num)
  simp only [natVal, digitVal_zero]; ring

/-- The outer loop of `operator*` over the digits `ds` of the left operand adds
`natVal ds * a` to `c` and keeps the sign of `a`. -/
theorem mulLoop_ok : ∀ (ds : List Char), (∀ ch ∈ ds, IsDigit ch) → ∀ (c a : BigInt),
    Canonical c → WellFormed a →
    ∃ r a1, (∃ N, ∀ fuel, N ≤ fuel → mulLoop fuel ds c a = .ok (r, a1)) ∧
      Canonical r ∧ val r = val c + natVal ds * val a ∧ a1.sign = a.sign := by
  intro ds
  induction ds with
  | nil =>
    intro _ c a hc _
    exact ⟨c, a, ⟨0, fun fuel _ => rfl⟩, hc, by simp [natVal], rfl⟩
  | cons ch rest ih =>
    intro hd c a hc ha
    have hch := hd ch (List.mem_cons_self _ _)
    obtain ⟨k, hk⟩ := Int.eq_ofNat_of_zero_le hch.digitVal_nonneg
    obtain ⟨c1, ⟨N1, h1⟩, hc1, hv1⟩ := mulWhile_ok ha k c hc
    obtain ⟨r, a1, ⟨N2, h2⟩, hr, hv, hs⟩ := ih (fun x hx => hd x (List.mem_cons_of_mem _ hx))
      c1 { a with num := '0' :: a.num } hc1 (shift_wellFormed ha)
    refine ⟨r, a1, ⟨max N1 N2, fun fuel hf => ?_⟩, hr, ?_, hs⟩
    · rw [mulLoop, hk, h1 fuel fuel (by omega) (by omega)]
      exact h2 fuel (by omega)
    · rw [hv, hv1, shift_val]
      simp only [natVal, hk]; ring

/-- `operator*` on well-formed operands returns the canonical product. -/
theorem mul_returns {x a : BigInt} (hx : WellFormed x) (ha : WellFormed a) :
    ∃ r, Returns (fun fuel => mul fuel x a) r ∧ Canonical r ∧ val r = val x * val a ∧
      r.sign = if r.num = ['0'] then 1 else x.sign * a.sign := by
  obtain ⟨c, a1, ⟨N, hN⟩, hc, hv, hs⟩ := mulLoop_ok x.num hx.2.2 ⟨['0'], 1⟩ a canonical_zero ha
  have hsgn : x.sign * a1.sign = 1 ∨ x.sign * a1.sign = -1 := by
    rw [hs]
    rcases hx.1 with h1 | h1 <;> rcases ha.1 with h2 | h2 <;> rw [h1, h2] <;> simp
  refine ⟨c.normalize (x.sign * a1.sign), ⟨N, fun fuel hf => ?_⟩,
    normalize_canonical hsgn hc.1.2.1 hc.1.2.2, ?_, ?_⟩
  · show mul fuel x a = _
    unfold mul
    rw [assignString_zero, hN fuel hf]
  · rw [normalize_val, hs]
    have hv0 : val (⟨['0'], 1⟩ : BigInt) = 0 := by decide
    rw [hv0, zero_add] at hv
    have hc0 := natVal_nonneg hc.1.2.2
    have hx0 := natVal_nonneg hx.2.2
    have ha0 := natVal_nonneg ha.2.2
    have hcv : c.sign * natVal c.num = natVal x.num * (a.sign * natVal a.num) := hv
    have hmag : natVal c.num = natVal x.num * natVal a.num := by
      have hp : 0 ≤ natVal x.num * natVal a.num := mul_nonneg hx0 ha0
      rcases hc.1.1 with h1 | h1 <;> rcases ha.1 with h2 | h2 <;> rw [h1, h2] at hcv
      · linarith
      · have : natVal c.num = 0 := by nlinarith
        nlinarith
      · have : natVal c.num = 0 := by nlinarith
        nlinarith
      · linarith
    rw [hmag]
    show _ = x.sign * natVal x.num * (a.sign * natVal a.num)
    ring
  · rw [normalize_sign, hs]

/-! ## Claims on multiplication and on a zero divisor -/

/-- C6: multiplication is exact.  For canonical `a` and `b`, `a * b` returns a value
`r` with `val r = val a * val b`; a non-zero product has the sign `a.sign * b.sign`, a
zero product has sign `+1`; and `999 * 999` prints as `998001`. -/
theorem mul_exact (a b : BigInt) (ha : Canonical a) (hb : Canonical b) :
    (∃ r, Returns (fun fuel => mul fuel a b) r ∧ val r = val a * val b ∧
      (val r ≠ 0 → r.sign = a.sign * b.sign) ∧ (val r = 0 → r.sign = 1)) ∧
    (∃ r, Returns (fun fuel => mul fuel (assignString "999".toList) (assignString "999".toList)) r ∧
      to_string r = "998001".toList) := by
  constructor
  · obtain ⟨r, hr, hc, hv, hs⟩ := mul_returns ha.1 hb.1
    refine ⟨r, hr, hv, ?_, ?_⟩
    · intro hne
      have : r.num ≠ ['0'] := by
        intro h0
        apply hne
        unfold val; rw [h0]; simp [natVal, digitVal_zero]
      rw [hs, if_neg this]
    · intro hz
      have hn : natVal r.num = 0 := by
        unfold val at hz
        rcases hc.1.1 with h | h <;> rw [h] at hz <;> omega
      exact hc.2.2 (hc.num_eq_zero_iff.1 hn)
  · have h1 : Canonical (assignString "999".toList) := by decide
    obtain ⟨r, hr, hc, hv, _⟩ := mul_returns h1.1 h1.1
    refine ⟨r, hr, ?_⟩
    have h3 : Canonical (assignString "998001".toList) := by decide
    have h4 : val (assignString "998001".toList) =
        val (assignString "999".toList) * val (assignString "999".toList) := by decide
    rw [canonical_ext hc h3 (by rw [hv, h4])]
    decide

/-- Instance of `mul_exact`: `-12 * 999`. -/
theorem mul_exact_witness :
    Canonical ⟨['2', '1'], -1⟩ ∧ Canonical ⟨['9', '9', '9'], 1⟩ ∧
    ∃ r, Returns (fun fuel => mul fuel ⟨['2', '1'], -1⟩ ⟨['9', '9', '9'], 1⟩) r ∧
      val r = val ⟨['2', '1'], -1⟩ * val ⟨['9', '9', '9'], 1⟩ := by
  obtain ⟨r, h1, h2, _⟩ :=
    (mul_exact ⟨['2', '1'], -1⟩ ⟨['9', '9', '9'], 1⟩ (by decide) (by decide)).1
  exact ⟨by decide, by decide, r, h1, h2⟩

/-- C2, as stated, fails: `7 / 0`, `7 % 0`, `0 / 0` and `0 % 0` end in a native integer
division whose divisor is zero: the first statement of `operator/` and `operator%`
evaluates `'0' / ('0' - 48)`. -/
theorem div_zero_reaches_native_division :
    div 50 (assignString "7".toList) (assignString "0".toList) = .error .nativeDivisionByZero ∧
    mod 50 (assignString "7".toList) (assignString "0".toList) = .error .nativeDivisionByZero ∧
    div 50 (assignString "0".toList) (assignString "0".toList) = .error .nativeDivisionByZero ∧
    mod 50 (assignString "0".toList) (assignString "0".toList) = .error .nativeDivisionByZero ∧
    zeroGuard (assignString "0".toList) = .error .nativeDivisionByZero ∧
    nativeDiv (('0' : Char).toNat : Int) (digitVal '0') = .error .nativeDivisionByZero := by
  refine ⟨rfl, rfl, rfl, rfl, rfl, rfl⟩

/-- C2, amended: for every dividend `a` (also `a = 0`), every fuel, and the divisor zero
(digit string `"0"`, of either sign), `a / 0` and `a % 0` return no value: the zero
divisor is found by the first statement, before the long-division loop, and that
statement evaluates a native division by zero; no other outcome is produced. -/
theorem div_zero_native_fault (a : BigInt) (s : Int) (fuel : Nat) :
    div fuel a ⟨['0'], s⟩ = .error .nativeDivisionByZero ∧
    mod fuel a ⟨['0'], s⟩ = .error .nativeDivisionByZero ∧
    zeroGuard ⟨['0'], s⟩ = .error .nativeDivisionByZero := by
  have hg : zeroGuard ⟨['0'], s⟩ = .error .nativeDivisionByZero := rfl
  refine ⟨?_, ?_, hg⟩
  · unfold div; rw [hg]
  · unfold mod; rw [hg]

/-! ## `operator/` and `operator%` -/

theorem Canonical.sign_of_nonneg {r : BigInt} (hr : Canonical r) (h : 0 ≤ val r) :
    r.sign = 1 := by
  have h0 := natVal_nonneg hr.1.2.2
  rcases hr.1.1 with hs | hs
  · exact hs
  · unfold val at h; rw [hs] at h
    have : natVal r.num = 0 := by omega
    exact hr.2.2 (hr.num_eq_zero_iff.1 this)

theorem val_of_sign_one {r : BigInt} (h : r.sign = 1) : val r = natVal r.num := by
  unfold val; rw [h, one_mul]

theorem lt_of_pos {c a : BigInt} (hc : Canonical c) (ha : Canonical a) (hcs : c.sign = 1)
    (has : a.sign = 1) : c.lt a = decide (val c < val a) := by
  rw [lt_same_sign hc ha (by rw [hcs, has]), if_pos hcs, val_of_sign_one hcs,
    val_of_sign_one has]

/-- The loop `while (!(c < a)) c = c - a, d.num[i]++` for a positive canonical `a` and a
non-negative canonical `c` below `(m + 1) * a`: it ends after `k ≤ m` subtractions with
`c - k * a`, which is below `a`, and has applied `d.num[i]++` `k` times. -/
theorem divWhile_ok {a : BigInt} (ha : Canonical a) (has : a.sign = 1) (i : Nat) :
    ∀ (m : Nat) (c : BigInt) (dnum : List Char), Canonical c → c.sign = 1 →
    val c < (m + 1) * val a →
    ∃ c2 k, k ≤ m ∧
      (∃ N, ∀ n fuel, N ≤ n → N ≤ fuel →
        divWhile n fuel a i c dnum = .ok (c2, (bump i)^[k] dnum)) ∧
      Canonical c2 ∧ c2.sign = 1 ∧ val c2 < val a ∧ val c = k * val a + val c2 := by
  intro m
  induction m with
  | zero =>
    intro c dnum hc hcs hlt
    simp only [Nat.cast_zero, zero_add, one_mul] at hlt
    refine ⟨c, 0, le_rfl, ⟨1, fun n fuel hn _ => ?_⟩, hc, hcs, hlt, by simp⟩
    obtain ⟨n1, rfl⟩ : ∃ n1, n = n1 + 1 := ⟨n - 1, by omega⟩
    rw [divWhile, lt_of_pos hc ha hcs has]
    simp [hlt]
  | succ m ih =>
    intro c dnum hc hcs hlt
    by_cases hca : val c < val a
    · refine ⟨c, 0, Nat.zero_le _, ⟨1, fun n fuel hn _ => ?_⟩, hc, hcs, hca, by simp⟩
      obtain ⟨n1, rfl⟩ : ∃ n1, n = n1 + 1 := ⟨n - 1, by omega⟩
      rw [divWhile, lt_of_pos hc ha hcs has]
      simp [hca]
    · obtain ⟨c1, ⟨N1, h1⟩, hc1, hv1⟩ := sub_returns hc.1 ha.1
      have hc1s : c1.sign = 1 := hc1.sign_of_nonneg (by omega)
      have hlt1 : val c1 < ((m : Int) + 1) * val a := by
        rw [hv1]; push_cast at hlt; linarith
      obtain ⟨c2, k, hk, ⟨N2, h2⟩, hc2, hc2s, hc2lt, hv2⟩ := ih c1 (bump i dnum) hc1 hc1s hlt1
      refine ⟨c2, k + 1, by omega, ⟨max N1 N2 + 1, fun n fuel hn hf => ?_⟩, hc2, hc2s, hc2lt, ?_⟩
      · obtain ⟨n1, rfl⟩ : ∃ n1, n = n1 + 1 := ⟨n - 1, by omega⟩
        have hsub : sub fuel c a = .ok c1 := h1 fuel (by omega)
        rw [divWhile, lt_of_pos hc ha hcs has]
        simp only [hca, decide_False, Bool.not_false, if_true, hsub]
        rw [Function.iterate_succ_apply]
        exact h2 n1 fuel (by omega) (by omega)
      · push_cast; linarith

theorem getD_set_self (l : List Char) (i : Nat) (ch : Char) (h : i < l.length) :
    (l.set i ch).getD i nul = ch := by
  rw [List.getD_eq_getElem?_getD, List.getElem?_set_self h]; rfl

theorem getD_set_ne (l : List Char) (i j : Nat) (ch : Char) (h : i ≠ j) :
    (l.set i ch).getD j nul = l.getD j nul := by
  rw [List.getD_eq_getElem?_getD, List.getD_eq_getElem?_getD, List.getElem?_set_ne h]

theorem natVal_set : ∀ (l : List Char) (i : Nat) (ch : Char), i < l.length →
    natVal (l.set i ch) = natVal l + 10 ^ i * (digitVal ch - digitVal (l.getD i nul)) := by
  intro l
  induction l with
  | nil => intro i ch h; simp at h
  | cons c cs ih =>
    intro i ch h
    cases i with
    | zero => simp [natVal]; ring
    | succ i =>
      have := ih i ch (by simpa using h)
      simp only [List.set_cons_succ, natVal, this, List.getD_cons_succ, pow_succ]
      ring

/-- Applying `d.num[i]++` `k` times to a digit string whose digit `i` has room for it. -/
theorem bump_iterate (i : Nat) : ∀ (k : Nat) (dnum : List Char), (∀ ch ∈ dnum, IsDigit ch) →
    i < dnum.length → digitVal (dnum.getD i nul) + k ≤ 9 →
    (∀ ch ∈ (bump i)^[k] dnum, IsDigit ch) ∧ ((bump i)^[k] dnum).length = dnum.length ∧
    natVal ((bump i)^[k] dnum) = natVal dnum + 10 ^ i * k ∧
    ∀ j, j ≠ i → ((bump i)^[k] dnum).getD j nul = dnum.getD j nul := by
  intro k
  induction k with
  | zero => intro dnum hd _ _; exact ⟨by simpa using hd, by simp, by simp, fun j _ => by simp⟩
  | succ k ih =>
    intro dnum hd hi h9
    have hdi := isDigit_getD hd i hi
    have h0 := hdi.digitVal_nonneg
    have hnew : ((dnum.getD i nul).toNat : Int) + 1 = (digitVal (dnum.getD i nul) + 1) + 48 := by
      unfold digitVal; ring
    have hdv : digitVal (toChar (((dnum.getD i nul).toNat : Int) + 1)) =
        digitVal (dnum.getD i nul) + 1 := by
      rw [hnew, digitVal_toChar _ (by omega) (by omega)]
    have hdg : IsDigit (toChar (((dnum.getD i nul).toNat : Int) + 1)) := by
      rw [hnew]; exact isDigit_toChar _ (by omega) (by omega)
    have hb : ∀ ch ∈ bump i dnum, IsDigit ch := by
      intro ch hch
      rcases List.mem_or_eq_of_mem_set hch with h | h
      · exact hd ch h
      · rw [h]; exact hdg
    have hbl : (bump i dnum).length = dnum.length := by simp [bump]
    have hbi : (bump i dnum).getD i nul = toChar (((dnum.getD i nul).toNat : Int) + 1) :=
      getD_set_self _ _ _ hi
    obtain ⟨i1, i2, i3, i4⟩ := ih (bump i dnum) hb (by omega) (by rw [hbi, hdv]; push_cast at h9; omega)
    rw [Function.iterate_succ_apply]
    refine ⟨i1, by rw [i2, hbl], ?_, ?_⟩
    · rw [i3]
      show natVal (dnum.set i _) + _ = _
      rw [natVal_set _ _ _ hi, hdv]; push_cast; ring
    · intro j hj
      rw [i4 j hj]
      exact getD_set_ne _ _ _ _ (Ne.symm hj)

theorem assignString_digit {ch : Char} (h : IsDigit ch) : assignString [ch] = ⟨[ch], 1⟩ := by
  have h1 : ch ≠ '-' := by rintro rfl; revert h; decide
  have h2 : ch ≠ '.' := by rintro rfl; revert h; decide
  rw [assignString_eq]
  have hu : unsignedPart [ch] = [ch] := by simp [unsignedPart, h1]
  have hh : ([ch] : List Char).head? ≠ some '-' := by simp [h1]
  rw [hu, List.takeWhile_cons_of_pos (by simpa using h2), if_neg hh]
  simp [BigInt.normalize, normalizeLoop]

theorem substr_one (l : List Char) (i : Nat) (h : i < l.length) :
    (l.drop i).take 1 = [l.getD i nul] := by
  induction l generalizing i with
  | nil => simp at h
  | cons c cs ih =>
    cases i with
    | zero => simp
    | succ i => simpa using ih i (by simpa using h)

/-- The outer loop of `operator/` and `operator%` for a positive canonical divisor `a`,
from digit position `i` down: the running remainder `c` stays canonical, non-negative
and below `a`; the loop ends with the remainder and, in `d.num`, the quotient `Q` of
`c * 10^i + (the low i digits of x)` by `a`. -/
theorem divLoop_ok {x a : BigInt} (hx : ∀ ch ∈ x.num, IsDigit ch) (ha : Canonical a)
    (has : a.sign = 1) :
    ∀ (i : Nat) (c : BigInt) (dnum : List Char), i ≤ x.num.length → Canonical c →
    c.sign = 1 → val c < val a →
    ∃ (c2 : BigInt) (dnum2 : List Char) (Q : Nat),
      (∃ N, ∀ fuel, N ≤ fuel → divLoop fuel x a i c dnum = .ok (c2, dnum2)) ∧
      Canonical c2 ∧ c2.sign = 1 ∧ val c2 < val a ∧
      val c * 10 ^ i + natVal (x.num.take i) = Q * val a + val c2 ∧
      ((∀ ch ∈ dnum, IsDigit ch) → x.num.length < dnum.length →
        (∀ j, j < i → dnum.getD j nul = '0') →
        (∀ ch ∈ dnum2, IsDigit ch) ∧ dnum2.length = dnum.length ∧
        natVal dnum2 = natVal dnum + Q) := by
  intro i
  induction i with
  | zero =>
    intro c dnum _ hc hcs hlt
    exact ⟨c, dnum, 0, ⟨0, fun fuel _ => rfl⟩, hc, hcs, hlt, by simp [natVal],
      fun hd _ _ => ⟨hd, rfl, by simp⟩⟩
  | succ i ih =>
    intro c dnum hi hc hcs hlt
    have hdi := isDigit_getD hx i (by omega)
    have hd0 := hdi.digitVal_nonneg
    have hd9 := hdi.digitVal_le
    have hc0 : 0 ≤ val c := by rw [val_of_sign_one hcs]; exact natVal_nonneg hc.1.2.2
    -- `c.num.insert(c.num.begin(), '0'); c = c + num.substr(i, 1);`
    have hdg : assignString ((x.num.drop i).take 1) = ⟨[x.num.getD i nul], 1⟩ := by
      rw [substr_one _ _ (by omega), assignString_digit hdi]
    have hdgw : WellFormed ⟨[x.num.getD i nul], 1⟩ :=
      ⟨Or.inl rfl, by simp, fun ch hch => by rw [List.mem_singleton.1 hch]; exact hdi⟩
    have hdgv : val (⟨[x.num.getD i nul], 1⟩ : BigInt) = digitVal (x.num.getD i nul) := by
      simp [val, natVal]
    obtain ⟨c1, ⟨N1, h1⟩, hc1, hv1⟩ := add_returns (shift_wellFormed hc.1) hdgw
    rw [shift_val, hdgv] at hv1
    have hc1s : c1.sign = 1 := hc1.sign_of_nonneg (by omega)
    -- `while (!(c < a)) c = c - a, d.num[i]++;`
    obtain ⟨c2, k, hk, ⟨N2, h2⟩, hc2, hc2s, hc2lt, hv2⟩ :=
      divWhile_ok ha has i 9 c1 dnum hc1 hc1s (by push_cast; omega)
    obtain ⟨c3, dnum3, Q, ⟨N3, h3⟩, hc3, hc3s, hc3lt, hv3, hdn⟩ :=
      ih c2 ((bump i)^[k] dnum) (by omega) hc2 hc2s hc2lt
    refine ⟨c3, dnum3, k * 10 ^ i + Q, ⟨max N1 (max N2 N3), fun fuel hf => ?_⟩, hc3, hc3s,
      hc3lt, ?_, ?_⟩
    · have e1 : add fuel { c with num := '0' :: c.num } ⟨[x.num.getD i nul], 1⟩ = .ok c1 :=
        h1 fuel (by omega)
      rw [divLoop, hdg, e1]
      simp only [h2 fuel fuel (by omega) (by omega)]
      exact h3 fuel (by omega)
    · rw [natVal_take_succ _ i (by omega)]
      push_cast
      have e : val c * 10 ^ (i + 1) + (natVal (List.take i x.num) +
          10 ^ i * digitVal (x.num.getD i nul)) =
          (10 * val c + digitVal (x.num.getD i nul)) * 10 ^ i + natVal (List.take i x.num) := by
        ring
      rw [e, ← hv1, hv2]
      linear_combination hv3
    · intro hd hlen hz
      have hzi : dnum.getD i nul = '0' := hz i (by omega)
      obtain ⟨b1, b2, b3, b4⟩ := bump_iterate i k dnum hd (by omega)
        (by rw [hzi, digitVal_zero]; omega)
      obtain ⟨d1, d2, d3⟩ := hdn b1 (by omega)
        (fun j hj => by rw [b4 j (by omega)]; exact hz j (by omega))
      refine ⟨d1, by rw [d2, b2], ?_⟩
      rw [d3, b3]; push_cast; ring

theorem zeroGuard_of_ne {a : BigInt} (h : a.num ≠ ['0']) : zeroGuard a = .ok a := by
  unfold zeroGuard
  rw [if_neg]
  unfold BigInt.digits
  rw [single_zero_iff]; exact h

/-- The divisor after `a.sign = 1`. -/
theorem stripSign_spec {a : BigInt} (ha : Canonical a) (hnz : a.num ≠ ['0']) :
    Canonical { a with sign := 1 } ∧ val { a with sign := 1 } = natVal a.num ∧
      0 < natVal a.num := by
  refine ⟨⟨⟨Or.inl rfl, ha.1.2.1, ha.1.2.2⟩, ha.2.1, fun _ => rfl⟩, by simp [val], ?_⟩
  have h0 := natVal_nonneg ha.1.2.2
  have : natVal a.num ≠ 0 := fun h => hnz (ha.num_eq_zero_iff.1 h)
  omega

/-- The long division of `operator/` and `operator%` on a well-formed dividend `x` and a
canonical non-zero divisor `a`: the loop started by both operators ends with the
remainder and the quotient digits of `|x|` by `|a|`. -/
theorem longDivision_ok {x a : BigInt} (hx : WellFormed x) (ha : Canonical a)
    (hnz : a.num ≠ ['0']) (dnum : List Char) :
    ∃ (c2 : BigInt) (dnum2 : List Char),
      (∃ N, ∀ fuel, N ≤ fuel →
        divLoop fuel x { a with sign := 1 } x.digits (assignString ['0']) dnum = .ok (c2, dnum2)) ∧
      Canonical c2 ∧ c2.sign = 1 ∧ natVal c2.num = natVal x.num % natVal a.num ∧
      ((∀ ch ∈ dnum, IsDigit ch) → x.num.length < dnum.length →
        (∀ j, j < x.num.length → dnum.getD j nul = '0') →
        (∀ ch ∈ dnum2, IsDigit ch) ∧ dnum2 ≠ [] ∧
        natVal dnum2 = natVal dnum + natVal x.num / natVal a.num) := by
  obtain ⟨hac, hav, hapos⟩ := stripSign_spec ha hnz
  obtain ⟨c2, dnum2, Q, hN, hc2, hc2s, hlt, hv, hdn⟩ :=
    divLoop_ok hx.2.2 hac rfl x.num.length ⟨['0'], 1⟩ dnum le_rfl canonical_zero rfl
      (by rw [hav]; exact hapos)
  have hz : val (⟨['0'], 1⟩ : BigInt) = 0 := by decide
  rw [hz, List.take_length, hav, val_of_sign_one hc2s] at hv
  rw [hav, val_of_sign_one hc2s] at hlt
  have hc20 := natVal_nonneg hc2.1.2.2
  have hu := (Int.ediv_emod_unique hapos).2
    ⟨show natVal c2.num + natVal a.num * (Q : Int) = natVal x.num by linarith, hc20, hlt⟩
  refine ⟨c2, dnum2, ?_, hc2, hc2s, hu.2.symm, fun h1 h2 h3 => ?_⟩
  · rw [assignString_zero]; exact hN
  · obtain ⟨d1, d2, d3⟩ := hdn h1 h2 h3
    refine ⟨d1, ?_, by rw [d3, hu.1]⟩
    intro h
    rw [h] at d2
    simp at d2
    omega

/-- `operator/` on a well-formed dividend and a canonical non-zero divisor returns the
canonical quotient truncated toward zero. -/
theorem div_returns {x a : BigInt} (hx : WellFormed x) (ha : Canonical a)
    (hnz : a.num ≠ ['0']) :
    ∃ q, Returns (fun fuel => div fuel x a) q ∧ Canonical q ∧
      val q = (val x).tdiv (val a) := by
  have hall0 : ∀ ch ∈ '0' :: List.replicate x.num.length '0', ch = '0' := by
    intro ch hch
    rcases List.mem_cons.1 hch with h | h
    · exact h
    · exact (List.mem_replicate.1 h).2
  have hd0 : ∀ ch ∈ '0' :: List.replicate x.num.length '0', IsDigit ch := by
    intro ch hch
    rw [hall0 ch hch]; decide
  have hz0 : ∀ j, j < x.num.length → ('0' :: List.replicate x.num.length '0').getD j nul = '0' := by
    intro j hj
    rw [List.getD_eq_getElem?_getD, List.getElem?_eq_getElem (by simp; omega)]
    exact hall0 _ (List.getElem_mem _)
  have hnv0 : natVal ('0' :: List.replicate x.num.length '0') = 0 := by
    have h0 := natVal_nonneg hd0
    have hall : ∀ n : Nat, natVal (List.replicate n '0') = 0 := by
      intro n
      induction n with
      | zero => rfl
      | succ n ih => simp [List.replicate_succ, natVal, ih, digitVal_zero]
    simp [natVal, hall, digitVal_zero]
  obtain ⟨c2, dnum2, ⟨N, hN⟩, _, _, _, hdn⟩ :=
    longDivision_ok hx ha hnz ('0' :: List.replicate x.num.length '0')
  obtain ⟨d1, d2, d3⟩ := hdn hd0 (by simp) hz0
  rw [hnv0, zero_add] at d3
  have hsgn : x.sign * a.sign = 1 ∨ x.sign * a.sign = -1 := by
    rcases hx.1 with h1 | h1 <;> rcases ha.1.1 with h2 | h2 <;> rw [h1, h2] <;> simp
  refine ⟨BigInt.normalize ⟨dnum2, 1⟩ (x.sign * a.sign), ⟨N, fun fuel hf => ?_⟩,
    normalize_canonical hsgn d2 d1, ?_⟩
  · show div fuel x a = _
    unfold div
    rw [zeroGuard_of_ne hnz]
    simp only [assignString_zero, List.singleton_append] at hN ⊢
    rw [hN fuel hf]
  · rw [normalize_val]
    show x.sign * a.sign * natVal dnum2 = (x.sign * natVal x.num).tdiv (a.sign * natVal a.num)
    rw [d3]
    have hx0 := natVal_nonneg hx.2.2
    have ha0 := natVal_nonneg ha.1.2.2
    have e := Int.tdiv_eq_ediv hx0 ha0
    rcases hx.1 with h1 | h1 <;> rcases ha.1.1 with h2 | h2 <;> rw [h1, h2] <;>
      simp only [one_mul, neg_one_mul, Int.neg_tdiv, Int.tdiv_neg, neg_neg, mul_neg, mul_one,
        neg_mul, e]

/-- `operator%` on a well-formed dividend and a canonical non-zero divisor returns the
canonical remainder of the truncating division; its magnitude is below the divisor's. -/
theorem mod_returns {x a : BigInt} (hx : WellFormed x) (ha : Canonical a)
    (hnz : a.num ≠ ['0']) :
    ∃ r, Returns (fun fuel => mod fuel x a) r ∧ Canonical r ∧
      val r = (val x).tmod (val a) ∧ natVal r.num < natVal a.num ∧
      r.sign = if r.num = ['0'] then 1 else x.sign := by
  obtain ⟨_, _, hapos⟩ := stripSign_spec ha hnz
  obtain ⟨c2, dnum2, ⟨N, hN⟩, hc2, hc2s, hv, _⟩ := longDivision_ok hx ha hnz []
  have hnum : (c2.normalize x.sign).num = c2.num := normalize_num_of_canonical hc2 _
  refine ⟨c2.normalize x.sign, ⟨N, fun fuel hf => ?_⟩,
    normalize_canonical hx.1 hc2.1.2.1 hc2.1.2.2, ?_, ?_, normalize_sign _ _⟩
  · show mod fuel x a = _
    unfold mod
    rw [zeroGuard_of_ne hnz]
    simp only [hN fuel hf]
  · rw [normalize_val, hv]
    show _ = (x.sign * natVal x.num).tmod (a.sign * natVal a.num)
    have hx0 := natVal_nonneg hx.2.2
    have ha0 := natVal_nonneg ha.1.2.2
    have e := Int.tmod_eq_emod hx0 ha0
    have key : ∀ u v : Int, u.tmod v = u - v * u.tdiv v := by
      intro u v; have := Int.tmod_add_tdiv u v; omega
    rcases hx.1 with h1 | h1 <;> rcases ha.1.1 with h2 | h2 <;> rw [h1, h2]
    · simp only [one_mul, e]
    · simp only [one_mul, neg_one_mul, Int.tmod_neg, e]
    · simp only [neg_one_mul, one_mul]
      rw [key (-natVal x.num), Int.neg_tdiv, ← e, key (natVal x.num)]; ring
    · simp only [neg_one_mul, Int.tmod_neg]
      rw [key (-natVal x.num), Int.neg_tdiv, ← e, key (natVal x.num)]; ring
  · rw [hnum, hv]
    exact Int.emod_lt_of_pos _ hapos

/-! ## `pow`, and the claims on division and on the representation invariant -/

/-- `pow(a, exp)` on a well-formed base returns the canonical power. -/
theorem pow_returns {a : BigInt} (ha : WellFormed a) : ∀ (exp : Nat),
    ∃ r, Returns (fun fuel => pow fuel a exp) r ∧ Canonical r ∧ val r = val a ^ exp := by
  intro exp
  induction exp with
  | zero =>
    refine ⟨⟨['1'], 1⟩, ⟨0, fun fuel _ => ?_⟩, canonical_one, by rw [pow_zero]; decide⟩
    show pow fuel a 0 = _
    rw [pow, assignString_one]
  | succ n ih =>
    obtain ⟨t, ⟨N1, h1⟩, ht, hv1⟩ := ih
    obtain ⟨r, ⟨N2, h2⟩, hr, hv2, _⟩ := mul_returns ht.1 ha
    refine ⟨r, ⟨max N1 N2, fun fuel hf => ?_⟩, hr, by rw [hv2, hv1, pow_succ]⟩
    have e1 : pow fuel a n = .ok t := h1 fuel (by omega)
    show pow fuel a (n + 1) = _
    rw [pow, e1]
    exact h2 fuel (by omega)

/-- A computation known to return a canonical value with integer `v` returns any
canonical value with that integer. -/
theorem returns_of_val {f : Nat → Except Fault BigInt} {v : Int}
    (h : ∃ r, Returns f r ∧ Canonical r ∧ val r = v) {c : BigInt} (hc : Canonical c)
    (hv : val c = v) : Returns f c := by
  obtain ⟨r, hr, hrc, hrv⟩ := h
  rw [canonical_ext hc hrc (by rw [hv, hrv])]
  exact hr

theorem num_ne_zero_of_val {b : BigInt} (hnz : val b ≠ 0) : b.num ≠ ['0'] := by
  intro h
  apply hnz
  unfold val; rw [h]; simp [natVal, digitVal_zero]

theorem abs_natVal_eq {x : BigInt} (hx : WellFormed x) : |val x| = natVal x.num := by
  rw [← abs_val hx]
  show x.abs.sign * natVal x.abs.num = _
  rw [abs_sign, abs_natVal, one_mul]

/-- C1: the division-modulo identity.  For a canonical `a` and a canonical non-zero `b`,
the operators return `q = a / b`, `r = a % b`, `p = q * b` and `s = p + r` with
`s == a`; `q` and `r` are the quotient and remainder of the division truncated toward
zero; the magnitude of `r` is below that of `b` (as integers, and by `abs(r) < abs(b)`);
`r` is zero or has the sign of `a`.  Also `100 / 7 = 14`, `100 % 7 = 2`, `-7 / 2 = -3`
and `-7 % 2 = -1`. -/
theorem div_mod_identity (a b : BigInt) (ha : Canonical a) (hb : Canonical b)
    (hnz : val b ≠ 0) :
    (∃ q r p s, Returns (fun fuel => div fuel a b) q ∧ Returns (fun fuel => mod fuel a b) r ∧
      Returns (fun fuel => mul fuel q b) p ∧ Returns (fun fuel => add fuel p r) s ∧
      s.eq a = true ∧
      val q = (val a).tdiv (val b) ∧ val r = (val a).tmod (val b) ∧
      |val r| < |val b| ∧ r.abs.lt b.abs = true ∧ (val r = 0 ∨ r.sign = a.sign)) ∧
    Returns (fun fuel => div fuel (assignString "100".toList) (assignString "7".toList))
      (assignString "14".toList) ∧
    Returns (fun fuel => mod fuel (assignString "100".toList) (assignString "7".toList))
      (assignString "2".toList) ∧
    Returns (fun fuel => div fuel (assignString "-7".toList) (assignString "2".toList))
      (assignString "-3".toList) ∧
    Returns (fun fuel => mod fuel (assignString "-7".toList) (assignString "2".toList))
      (assignString "-1".toList) := by
  refine ⟨?_, ?_, ?_, ?_, ?_⟩
  · have hbn := num_ne_zero_of_val hnz
    obtain ⟨q, hq, hqc, hqv⟩ := div_returns ha.1 hb hbn
    obtain ⟨r, hr, hrc, hrv, hrlt, hrs⟩ := mod_returns ha.1 hb hbn
    obtain ⟨p, hp, hpc, hpv, _⟩ := mul_returns hqc.1 hb.1
    obtain ⟨s, hs, hsc, hsv⟩ := add_returns hpc.1 hrc.1
    have hsa : s = a := by
      apply canonical_ext hsc ha
      rw [hsv, hpv, hqv, hrv]
      exact Int.tdiv_add_tmod' _ _
    refine ⟨q, r, p, s, hq, hr, hp, hs, ?_, hqv, hrv, ?_, ?_, ?_⟩
    · rw [hsa]; simp [BigInt.eq]
    · rw [abs_natVal_eq hrc.1, abs_natVal_eq hb.1]; exact hrlt
    · rw [abs_lt_abs hrc.1 hb.1]; simpa using hrlt
    · by_cases h0 : r.num = ['0']
      · left; unfold val; rw [h0]; simp [natVal, digitVal_zero]
      · right; rw [hrs, if_neg h0]
  · exact returns_of_val (@div_returns (assignString "100".toList) (assignString "7".toList)
      (by decide) (by decide) (by decide)) (by decide) (by decide)
  · obtain ⟨r, h1, h2, h3, _⟩ := @mod_returns (assignString "100".toList)
      (assignString "7".toList) (by decide) (by decide) (by decide)
    exact returns_of_val ⟨r, h1, h2, h3⟩ (by decide) (by decide)
  · exact returns_of_val (@div_returns (assignString "-7".toList) (assignString "2".toList)
      (by decide) (by decide) (by decide)) (by decide) (by decide)
  · obtain ⟨r, h1, h2, h3, _⟩ := @mod_returns (assignString "-7".toList)
      (assignString "2".toList) (by decide) (by decide) (by decide)
    exact returns_of_val ⟨r, h1, h2, h3⟩ (by decide) (by decide)

/-- Instance of `div_mod_identity`: `-789` divided by `12`. -/
theorem div_mod_identity_witness :
    Canonical ⟨['9', '8', '7'], -1⟩ ∧ Canonical ⟨['2', '1'], 1⟩ ∧ val ⟨['2', '1'], 1⟩ ≠ 0 ∧
    ∃ q r p s, Returns (fun fuel => div fuel ⟨['9', '8', '7'], -1⟩ ⟨['2', '1'], 1⟩) q ∧
      Returns (fun fuel => mod fuel ⟨['9', '8', '7'], -1⟩ ⟨['2', '1'], 1⟩) r ∧
      Returns (fun fuel => mul fuel q ⟨['2', '1'], 1⟩) p ∧
      Returns (fun fuel => add fuel p r) s ∧ s.eq ⟨['9', '8', '7'], -1⟩ = true := by
  obtain ⟨q, r, p, s, h1, h2, h3, h4, h5, _⟩ :=
    (div_mod_identity ⟨['9', '8', '7'], -1⟩ ⟨['2', '1'], 1⟩ (by decide) (by decide) (by decide)).1
  exact ⟨by decide, by decide, by decide, q, r, p, s, h1, h2, h3, h4, h5⟩

/-- C8: the representation invariant is kept.  For canonical `a` and `b` and every
exponent `n`, the values returned by `a + b`, `a - b`, `a * b`, by `a / b` and `a % b`
when `b` is not zero, and by `pow(a, n)`, and the value `abs(a)`, are canonical:
non-empty digit string of decimal digits, no most-significant zero except in `"0"`,
sign `+1` or `-1`, and sign `+1` when the value is zero. -/
theorem ops_canonical (a b : BigInt) (n : Nat) (ha : Canonical a) (hb : Canonical b) :
    (∃ r, Returns (fun fuel => add fuel a b) r ∧ Canonical r ∧ (val r = 0 → r.sign = 1)) ∧
    (∃ r, Returns (fun fuel => sub fuel a b) r ∧ Canonical r ∧ (val r = 0 → r.sign = 1)) ∧
    (∃ r, Returns (fun fuel => mul fuel a b) r ∧ Canonical r ∧ (val r = 0 → r.sign = 1)) ∧
    (val b ≠ 0 →
      ∃ r, Returns (fun fuel => div fuel a b) r ∧ Canonical r ∧ (val r = 0 → r.sign = 1)) ∧
    (val b ≠ 0 →
      ∃ r, Returns (fun fuel => mod fuel a b) r ∧ Canonical r ∧ (val r = 0 → r.sign = 1)) ∧
    (∃ r, Returns (fun fuel => pow fuel a n) r ∧ Canonical r ∧ (val r = 0 → r.sign = 1)) ∧
    Canonical a.abs ∧ (val a.abs = 0 → a.abs.sign = 1) := by
  have hz : ∀ r : BigInt, Canonical r → val r = 0 → r.sign = 1 :=
    fun r hr h => hr.sign_of_nonneg (le_of_eq h.symm)
  refine ⟨?_, ?_, ?_, ?_, ?_, ?_, abs_canonical ha.1, fun _ => abs_sign a⟩
  · obtain ⟨r, h1, h2, _⟩ := add_returns ha.1 hb.1
    exact ⟨r, h1, h2, hz r h2⟩
  · obtain ⟨r, h1, h2, _⟩ := sub_returns ha.1 hb.1
    exact ⟨r, h1, h2, hz r h2⟩
  · obtain ⟨r, h1, h2, _⟩ := mul_returns ha.1 hb.1
    exact ⟨r, h1, h2, hz r h2⟩
  · intro hnz
    obtain ⟨r, h1, h2, _⟩ := div_returns ha.1 hb (num_ne_zero_of_val hnz)
    exact ⟨r, h1, h2, hz r h2⟩
  · intro hnz
    obtain ⟨r, h1, h2, _⟩ := mod_returns ha.1 hb (num_ne_zero_of_val hnz)
    exact ⟨r, h1, h2, hz r h2⟩
  · obtain ⟨r, h1, h2, _⟩ := pow_returns ha.1 n
    exact ⟨r, h1, h2, hz r h2⟩

/-- Instance of `ops_canonical`: `-25 / 10` and `pow(-25, 3)`. -/
theorem ops_canonical_witness :
    Canonical ⟨['5', '2'], -1⟩ ∧ Canonical ⟨['0', '1'], 1⟩ ∧ val ⟨['0', '1'], 1⟩ ≠ 0 ∧
    (∃ r, Returns (fun fuel => div fuel ⟨['5', '2'], -1⟩ ⟨['0', '1'], 1⟩) r ∧ Canonical r) ∧
    (∃ r, Returns (fun fuel => pow fuel ⟨['5', '2'], -1⟩ 3) r ∧ Canonical r) := by
  have h := ops_canonical ⟨['5', '2'], -1⟩ ⟨['0', '1'], 1⟩ 3 (by decide) (by decide)
  obtain ⟨r1, h1, h2, _⟩ := h.2.2.2.1 (by decide)
  obtain ⟨r2, h3, h4, _⟩ := h.2.2.2.2.2.1
  exact ⟨by decide, by decide, by decide, ⟨r1, h1, h2⟩, ⟨r2, h3, h4⟩⟩

/-! ## Claims on the text round trip and on the relational operators -/

theorem Canonical.neg_sign_nonzero {x : BigInt} (hx : Canonical x) (hs : x.sign = -1) :
    x.num ≠ ['0'] ∧ 0 < natVal x.num := by
  have h0 := natVal_nonneg hx.1.2.2
  have hne : x.num ≠ ['0'] := by
    intro h
    have := hx.2.2 h
    omega
  refine ⟨hne, ?_⟩
  have : natVal x.num ≠ 0 := fun h => hne (hx.num_eq_zero_iff.1 h)
  omega

theorem BigInt.eq_of_fields {x y : BigInt} (h1 : x.num = y.num) (h2 : x.sign = y.sign) :
    x = y := by
  cases x; cases y
  simp only [BigInt.mk.injEq]
  exact ⟨h1, h2⟩

theorem isDigit_ne_minus {ch : Char} (h : IsDigit ch) : ch ≠ '-' := by
  rintro rfl; revert h; decide

theorem isDigit_ne_dot {ch : Char} (h : IsDigit ch) : ch ≠ '.' := by
  rintro rfl; revert h; decide

theorem takeWhile_digits {l : List Char} (h : ∀ ch ∈ l, IsDigit ch) :
    l.takeWhile (fun ch => decide (ch ≠ '.')) = l := by
  rw [List.takeWhile_eq_self_iff]
  intro ch hch
  simpa using isDigit_ne_dot (h ch hch)

/-- Converting the printed text of a canonical value gives the value back. -/
theorem assignString_to_string {x : BigInt} (hx : Canonical x) :
    assignString (to_string x) = x := by
  have hrd : ∀ ch ∈ x.num.reverse, IsDigit ch := fun ch hch => hx.1.2.2 ch (by simpa using hch)
  have hfix : ∀ s : Int, (BigInt.normalize ⟨x.num, 1⟩ s).num = x.num := by
    intro s
    apply (normalize_stripped ⟨x.num, 1⟩ s).fixed
    intro h
    show x.num.length ≤ 1
    rw [hx.2.1 h]; simp
  rw [assignString_eq, to_string_eq]
  rcases hx.1.1 with hs | hs
  · have hneg : ¬ (x.sign = -1) := by omega
    have hh : x.num.reverse.head? ≠ some '-' := by
      intro h
      have hmem := List.mem_of_mem_head? h
      exact isDigit_ne_minus (hrd _ hmem) rfl
    simp only [if_neg hneg, List.nil_append, unsignedPart, if_neg hh, takeWhile_digits hrd,
      List.reverse_reverse]
    refine BigInt.eq_of_fields (hfix 1) ?_
    rw [normalize_sign, hs]
    simp
  · have hne := (hx.neg_sign_nonzero hs).1
    simp only [if_pos hs, List.singleton_append, unsignedPart, List.head?_cons, if_true,
      List.tail_cons, takeWhile_digits hrd, List.reverse_reverse]
    refine BigInt.eq_of_fields (hfix (-1)) ?_
    rw [normalize_sign, hfix (-1), if_neg hne, hs]

/-- C11: the text round trip.  For a canonical `x`, converting the text `to_string x`
with `operator=(std::string)` gives `x` back (same sign, same digit string), so that
printing the converted value gives the text `to_string x` again. -/
theorem text_round_trip (x : BigInt) (hx : Canonical x) :
    assignString (to_string x) = x ∧
    (assignString (to_string x)).eq x = true ∧
    to_string (assignString (to_string x)) = to_string x := by
  have key : assignString (to_string x) = x := assignString_to_string hx
  refine ⟨key, ?_, by rw [key]⟩
  rw [key]; simp [BigInt.eq]

/-- Instance of `text_round_trip`: the value `-120`. -/
theorem text_round_trip_witness :
    Canonical ⟨['0', '2', '1'], -1⟩ ∧
    assignString (to_string ⟨['0', '2', '1'], -1⟩) = ⟨['0', '2', '1'], -1⟩ :=
  ⟨by decide, (text_round_trip ⟨['0', '2', '1'], -1⟩ (by decide)).1⟩

/-- On canonical values `operator<` is the order of the integers. -/
theorem lt_iff {x a : BigInt} (hx : Canonical x) (ha : Canonical a) :
    x.lt a = decide (val x < val a) := by
  have hx0 := natVal_nonneg hx.1.2.2
  have ha0 := natVal_nonneg ha.1.2.2
  by_cases hs : x.sign = a.sign
  · rw [lt_same_sign hx ha hs]
    unfold val
    rcases hx.1.1 with h | h
    · rw [if_pos h, ← hs, h]; simp
    · rw [if_neg (by omega), ← hs, h]
      apply decide_eq_decide.2
      constructor <;> intro hh <;> omega
  · unfold BigInt.lt
    rw [if_pos hs]
    unfold val
    rcases hx.1.1 with h | h <;> rcases ha.1.1 with h2 | h2
    · exact absurd (h.trans h2.symm) hs
    · have := (ha.neg_sign_nonzero h2).2
      rw [h, h2]
      apply decide_eq_decide.2
      constructor <;> intro hh <;> omega
    · have := (hx.neg_sign_nonzero h).2
      rw [h, h2]
      apply decide_eq_decide.2
      constructor <;> intro hh <;> omega
    · exact absurd (h.trans h2.symm) hs

/-- On canonical values `operator==` is equality of the integers. -/
theorem eq_iff {x a : BigInt} (hx : Canonical x) (ha : Canonical a) :
    x.eq a = true ↔ val x = val a := by
  constructor
  · intro h
    simp only [BigInt.eq, Bool.and_eq_true, decide_eq_true_eq] at h
    unfold val; rw [h.1, h.2]
  · intro h
    rw [canonical_ext hx ha h]; simp [BigInt.eq]

/-- C12: the six relational operators agree with the order of the integers on canonical
values; `<` is irreflexive and transitive, and exactly one of `a < b`, `a == b`, `a > b`
holds. -/
theorem relational_operators (a b : BigInt) (ha : Canonical a) (hb : Canonical b) :
    (a.lt b = true ↔ val a < val b) ∧ (a.gt b = true ↔ val a > val b) ∧
    (a.le b = true ↔ val a ≤ val b) ∧ (a.ge b = true ↔ val a ≥ val b) ∧
    (a.eq b = true ↔ val a = val b) ∧ (a.ne b = true ↔ val a ≠ val b) ∧
    a.lt a = false ∧
    (∀ c, Canonical c → a.lt b = true → b.lt c = true → a.lt c = true) ∧
    ((a.lt b = true ∧ a.eq b = false ∧ a.gt b = false) ∨
     (a.lt b = false ∧ a.eq b = true ∧ a.gt b = false) ∨
     (a.lt b = false ∧ a.eq b = false ∧ a.gt b = true)) := by
  have hlt : a.lt b = true ↔ val a < val b := by rw [lt_iff ha hb]; simp
  have hgt : a.gt b = true ↔ val a > val b := by
    unfold BigInt.gt; rw [lt_iff hb ha]; simp
  have heq := eq_iff ha hb
  have hne : a.ne b = true ↔ val a ≠ val b := by
    rw [ne_eq, ← heq]
    simp only [BigInt.ne, BigInt.eq, Bool.or_eq_true, decide_eq_true_eq, Bool.and_eq_true]
    tauto
  have hltf : a.lt b = false ↔ ¬ val a < val b := by rw [← hlt]; simp
  have hgtf : a.gt b = false ↔ ¬ val a > val b := by rw [← hgt]; simp
  have heqf : a.eq b = false ↔ ¬ val a = val b := by rw [← heq]; simp
  refine ⟨hlt, hgt, ?_, ?_, heq, hne, ?_, ?_, ?_⟩
  · unfold BigInt.le
    rw [Bool.or_eq_true, hlt, heq]; omega
  · unfold BigInt.ge
    rw [Bool.or_eq_true, hgt, heq]; omega
  · rw [lt_iff ha ha]; simp
  · intro c hc h1 h2
    rw [lt_iff ha hb] at h1
    rw [lt_iff hb hc] at h2
    rw [lt_iff ha hc]
    simp only [decide_eq_true_eq] at h1 h2 ⊢
    omega
  · rw [hlt, hgt, heq, hltf, hgtf, heqf]; omega

/-- Instance of `relational_operators`: `-120 < 7`. -/
theorem relational_operators_witness :
    Canonical ⟨['0', '2', '1'], -1⟩ ∧ Canonical ⟨['7'], 1⟩ ∧
    ((⟨['0', '2', '1'], -1⟩ : BigInt).lt ⟨['7'], 1⟩ = true ↔
      val ⟨['0', '2', '1'], -1⟩ < val ⟨['7'], 1⟩) :=
  ⟨by decide, by decide,
    (relational_operators ⟨['0', '2', '1'], -1⟩ ⟨['7'], 1⟩ (by decide) (by decide)).1⟩

/-! ## Claims on the algebraic laws and on exponentiation -/

theorem eq_self (x : BigInt) : x.eq x = true := by simp [BigInt.eq]

theorem fromNative_zero : fromNative 0 = ⟨['0'], 1⟩ := by decide

theorem fromNative_one : fromNative 1 = ⟨['1'], 1⟩ := by decide

theorem fromNative_23 : fromNative 23 = ⟨['3', '2'], 1⟩ := by decide

/-- C13: the additive inverse.  For a canonical `a`, also `a = 0` (whose negation is
the pair sign `-1`, digits `"0"`), `a + (-a)` returns a value that is `==` to
`BigInt(0)` and is printed as `"0"`, without a sign. -/
theorem additive_inverse (a : BigInt) (ha : Canonical a) :
    (∃ r, Returns (fun fuel => add fuel a a.neg) r ∧ r.eq (fromNative 0) = true ∧
      to_string r = "0".toList) ∧
    (fromNative 0).neg = ⟨['0'], -1⟩ ∧
    Returns (fun fuel => add fuel (fromNative 0) (fromNative 0).neg) (fromNative 0) := by
  have gen : ∀ x : BigInt, Canonical x →
      Returns (fun fuel => add fuel x x.neg) (fromNative 0) := by
    intro x hx
    apply returns_of_val (add_returns hx.1 (neg_wellFormed hx.1))
    · rw [fromNative_zero]; exact canonical_zero
    · rw [fromNative_zero, neg_val]
      have : val (⟨['0'], 1⟩ : BigInt) = 0 := by decide
      rw [this]; ring
  refine ⟨⟨fromNative 0, gen a ha, eq_self _, by decide⟩, by decide, gen _ ?_⟩
  rw [fromNative_zero]; exact canonical_zero

/-- Instance of `additive_inverse`: `-120 + 120`. -/
theorem additive_inverse_witness :
    Canonical ⟨['0', '2', '1'], -1⟩ ∧
    ∃ r, Returns (fun fuel => add fuel ⟨['0', '2', '1'], -1⟩ (BigInt.neg ⟨['0', '2', '1'], -1⟩)) r ∧
      r.eq (fromNative 0) = true ∧ to_string r = "0".toList :=
  ⟨by decide, (additive_inverse ⟨['0', '2', '1'], -1⟩ (by decide)).1⟩

/-- C14: commutativity.  For canonical `a` and `b`, `a + b == b + a` and
`a * b == b * a`. -/
theorem commutativity (a b : BigInt) (ha : Canonical a) (hb : Canonical b) :
    (∃ r s, Returns (fun fuel => add fuel a b) r ∧ Returns (fun fuel => add fuel b a) s ∧
      r.eq s = true) ∧
    (∃ r s, Returns (fun fuel => mul fuel a b) r ∧ Returns (fun fuel => mul fuel b a) s ∧
      r.eq s = true) := by
  constructor
  · obtain ⟨r, hr, hrc, hrv⟩ := add_returns ha.1 hb.1
    obtain ⟨s, hs, hsc, hsv⟩ := add_returns hb.1 ha.1
    refine ⟨r, s, hr, hs, ?_⟩
    rw [canonical_ext hrc hsc (by rw [hrv, hsv]; ring)]; exact eq_self _
  · obtain ⟨r, hr, hrc, hrv, _⟩ := mul_returns ha.1 hb.1
    obtain ⟨s, hs, hsc, hsv, _⟩ := mul_returns hb.1 ha.1
    refine ⟨r, s, hr, hs, ?_⟩
    rw [canonical_ext hrc hsc (by rw [hrv, hsv]; ring)]; exact eq_self _

/-- Instance of `commutativity`: `-120` and `7`. -/
theorem commutativity_witness :
    Canonical ⟨['0', '2', '1'], -1⟩ ∧ Canonical ⟨['7'], 1⟩ ∧
    ∃ r s, Returns (fun fuel => mul fuel ⟨['0', '2', '1'], -1⟩ ⟨['7'], 1⟩) r ∧
      Returns (fun fuel => mul fuel ⟨['7'], 1⟩ ⟨['0', '2', '1'], -1⟩) s ∧ r.eq s = true :=
  ⟨by decide, by decide,
    (commutativity ⟨['0', '2', '1'], -1⟩ ⟨['7'], 1⟩ (by decide) (by decide)).2⟩

/-- C15: associativity.  For canonical `a`, `b` and `c`, `(a + b) + c == a + (b + c)`
and `(a * b) * c == a * (b * c)`. -/
theorem associativity (a b c : BigInt) (ha : Canonical a) (hb : Canonical b)
    (hc : Canonical c) :
    (∃ ab bc r s, Returns (fun fuel => add fuel a b) ab ∧ Returns (fun fuel => add fuel ab c) r ∧
      Returns (fun fuel => add fuel b c) bc ∧ Returns (fun fuel => add fuel a bc) s ∧
      r.eq s = true) ∧
    (∃ ab bc r s, Returns (fun fuel => mul fuel a b) ab ∧ Returns (fun fuel => mul fuel ab c) r ∧
      Returns (fun fuel => mul fuel b c) bc ∧ Returns (fun fuel => mul fuel a bc) s ∧
      r.eq s = true) := by
  constructor
  · obtain ⟨ab, h1, c1, v1⟩ := add_returns ha.1 hb.1
    obtain ⟨r, h2, c2, v2⟩ := add_returns c1.1 hc.1
    obtain ⟨bc, h3, c3, v3⟩ := add_returns hb.1 hc.1
    obtain ⟨s, h4, c4, v4⟩ := add_returns ha.1 c3.1
    refine ⟨ab, bc, r, s, h1, h2, h3, h4, ?_⟩
    rw [canonical_ext c2 c4 (by rw [v2, v1, v4, v3]; ring)]; exact eq_self _
  · obtain ⟨ab, h1, c1, v1, _⟩ := mul_returns ha.1 hb.1
    obtain ⟨r, h2, c2, v2, _⟩ := mul_returns c1.1 hc.1
    obtain ⟨bc, h3, c3, v3, _⟩ := mul_returns hb.1 hc.1
    obtain ⟨s, h4, c4, v4, _⟩ := mul_returns ha.1 c3.1
    refine ⟨ab, bc, r, s, h1, h2, h3, h4, ?_⟩
    rw [canonical_ext c2 c4 (by rw [v2, v1, v4, v3]; ring)]; exact eq_self _

/-- Instance of `associativity`: `-120`, `7` and `95`. -/
theorem associativity_witness :
    Canonical ⟨['0', '2', '1'], -1⟩ ∧ Canonical ⟨['7'], 1⟩ ∧ Canonical ⟨['5', '9'], 1⟩ ∧
    ∃ ab bc r s, Returns (fun fuel => add fuel ⟨['0', '2', '1'], -1⟩ ⟨['7'], 1⟩) ab ∧
      Returns (fun fuel => add fuel ab ⟨['5', '9'], 1⟩) r ∧
      Returns (fun fuel => add fuel ⟨['7'], 1⟩ ⟨['5', '9'], 1⟩) bc ∧
      Returns (fun fuel => add fuel ⟨['0', '2', '1'], -1⟩ bc) s ∧ r.eq s = true :=
  ⟨by decide, by decide, by decide,
    (associativity ⟨['0', '2', '1'], -1⟩ ⟨['7'], 1⟩ ⟨['5', '9'], 1⟩ (by decide) (by decide)
      (by decide)).1⟩

/-- C16: exponentiation.  For a canonical `a` and every exponent `n`, `pow(a, n)`
returns a value with integer `val a ^ n`; `pow(a, 0)` is `BigInt(1)` for every `a`, also
for `a = 0`; `pow(a, 1) == a`; and `operator^` is `pow`. -/
theorem exponentiation (a : BigInt) (n : Nat) (ha : Canonical a) :
    (∃ r, Returns (fun fuel => pow fuel a n) r ∧ val r = val a ^ n) ∧
    (∀ fuel, pow fuel a 0 = .ok (fromNative 1)) ∧
    (∀ fuel, pow fuel (fromNative 0) 0 = .ok (fromNative 1)) ∧
    (∃ r, Returns (fun fuel => pow fuel a 1) r ∧ r.eq a = true) ∧
    (∀ fuel, powOperator fuel a n = pow fuel a n) := by
  refine ⟨?_, fun _ => rfl, fun _ => rfl, ?_, fun _ => rfl⟩
  · obtain ⟨r, hr, _, hv⟩ := pow_returns ha.1 n
    exact ⟨r, hr, hv⟩
  · obtain ⟨r, hr, hc, hv⟩ := pow_returns ha.1 1
    refine ⟨r, hr, ?_⟩
    rw [canonical_ext hc ha (by rw [hv, pow_one])]; exact eq_self _

/-- Instance of `exponentiation`: `pow(-12, 3)`. -/
theorem exponentiation_witness :
    Canonical ⟨['2', '1'], -1⟩ ∧
    ∃ r, Returns (fun fuel => pow fuel ⟨['2', '1'], -1⟩ 3) r ∧ val r = val ⟨['2', '1'], -1⟩ ^ 3 :=
  ⟨by decide, (exponentiation ⟨['2', '1'], -1⟩ 3 (by decide)).1⟩

/-- The value that `pow(BigInt(23), 50)` returns. -/
theorem pow_23_50 :
    Returns (fun fuel => pow fuel (fromNative 23) 50)
      (assignString
        "122008981252869411022491112993141891091036959856659100591281395343249".toList) := by
  have h23 : WellFormed (fromNative 23) := by decide
  apply returns_of_val (pow_returns h23 50)
  · decide!
  · decide!

/-- C17, as stated, fails: `pow(BigInt(23), 50)` does not return a value of 68 digits. -/
theorem pow_23_50_not_68_digits :
    ¬ ∃ r, Returns (fun fuel => pow fuel (fromNative 23) 50) r ∧ r.digits = 68 := by
  rintro ⟨r, hr, hd⟩
  rw [Returns.unique hr pow_23_50] at hd
  revert hd
  decide!

/-- C17, amended: `pow(BigInt(23), 50)` has the value `23^50` exactly; its decimal text
(`to_string` and `operator<<`) is the numeral
`122008981252869411022491112993141891091036959856659100591281395343249` of 69 digits,
and `digits()` of the result is 69. -/
theorem pow_23_50_exact :
    ∃ r, Returns (fun fuel => pow fuel (fromNative 23) 50) r ∧ val r = 23 ^ 50 ∧
      to_string r =
        "122008981252869411022491112993141891091036959856659100591281395343249".toList ∧
      output r = to_string r ∧ (to_string r).length = 69 ∧ r.digits = 69 := by
  refine ⟨_, pow_23_50, by decide!, by decide!, by decide!, by decide!, by decide!⟩

/-- C20: subtraction is addition of the negation, for all canonical operands:
`a - b == a + (-b)` and `a + b == a - (-b)`, where `-b` is the sign-flipped copy of `b`,
for `b = 0` the non-canonical pair (sign `-1`, digits `"0"`); all four operations
return, so the redirection between `operator+` and `operator-` ends. -/
theorem sub_is_add_neg (a b : BigInt) (ha : Canonical a) (hb : Canonical b) :
    (∃ r s, Returns (fun fuel => sub fuel a b) r ∧ Returns (fun fuel => add fuel a b.neg) s ∧
      r.eq s = true) ∧
    (∃ r s, Returns (fun fuel => add fuel a b) r ∧ Returns (fun fuel => sub fuel a b.neg) s ∧
      r.eq s = true) ∧
    (fromNative 0).neg = ⟨['0'], -1⟩ ∧ ¬ Canonical (fromNative 0).neg ∧
    (∃ r s, Returns (fun fuel => sub fuel a (fromNative 0)) r ∧
      Returns (fun fuel => add fuel a (fromNative 0).neg) s ∧ r.eq s = true ∧ r.eq a = true) ∧
    (∃ r s, Returns (fun fuel => add fuel a (fromNative 0)) r ∧
      Returns (fun fuel => sub fuel a (fromNative 0).neg) s ∧ r.eq s = true ∧ r.eq a = true) := by
  have gen : ∀ y : BigInt, Canonical y →
      (∃ r s, Returns (fun fuel => sub fuel a y) r ∧ Returns (fun fuel => add fuel a y.neg) s ∧
        r.eq s = true ∧ val r = val a - val y ∧ Canonical r) ∧
      (∃ r s, Returns (fun fuel => add fuel a y) r ∧ Returns (fun fuel => sub fuel a y.neg) s ∧
        r.eq s = true ∧ val r = val a + val y ∧ Canonical r) := by
    intro y hy
    constructor
    · obtain ⟨r, hr, hrc, hrv⟩ := sub_returns ha.1 hy.1
      obtain ⟨s, hs, hsc, hsv⟩ := add_returns ha.1 (neg_wellFormed hy.1)
      refine ⟨r, s, hr, hs, ?_, hrv, hrc⟩
      rw [canonical_ext hrc hsc (by rw [hrv, hsv, neg_val]; ring)]; exact eq_self _
    · obtain ⟨r, hr, hrc, hrv⟩ := add_returns ha.1 hy.1
      obtain ⟨s, hs, hsc, hsv⟩ := sub_returns ha.1 (neg_wellFormed hy.1)
      refine ⟨r, s, hr, hs, ?_, hrv, hrc⟩
      rw [canonical_ext hrc hsc (by rw [hrv, hsv, neg_val]; ring)]; exact eq_self _
  have h0c : Canonical (fromNative 0) := by decide
  have h0v : val (fromNative 0) = 0 := by decide
  obtain ⟨⟨r1, s1, a1, a2, a3, _, _⟩, ⟨r2, s2, b1, b2, b3, _, _⟩⟩ := gen b hb
  obtain ⟨⟨r3, s3, c1, c2, c3, c4, c5⟩, ⟨r4, s4, d1, d2, d3, d4, d5⟩⟩ := gen _ h0c
  refine ⟨⟨r1, s1, a1, a2, a3⟩, ⟨r2, s2, b1, b2, b3⟩, by decide, by decide,
    ⟨r3, s3, c1, c2, c3, ?_⟩, ⟨r4, s4, d1, d2, d3, ?_⟩⟩
  · rw [canonical_ext c5 ha (by rw [c4, h0v]; ring)]; exact eq_self _
  · rw [canonical_ext d5 ha (by rw [d4, h0v]; ring)]; exact eq_self _

/-- Instance of `sub_is_add_neg`: `-120 - 7` and `-120 + (-7)`. -/
theorem sub_is_add_neg_witness :
    Canonical ⟨['0', '2', '1'], -1⟩ ∧ Canonical ⟨['7'], 1⟩ ∧
    ∃ r s, Returns (fun fuel => sub fuel ⟨['0', '2', '1'], -1⟩ ⟨['7'], 1⟩) r ∧
      Returns (fun fuel => add fuel ⟨['0', '2', '1'], -1⟩ (BigInt.neg ⟨['7'], 1⟩)) s ∧
      r.eq s = true :=
  ⟨by decide, by decide,
    (sub_is_add_neg ⟨['0', '2', '1'], -1⟩ ⟨['7'], 1⟩ (by decide) (by decide)).1⟩

/-! ## Native integers: `operator T()` and `operator=(T)` -/

theorem wrap_modEq (w : Nat) (v : Int) : wrap w v ≡ v [ZMOD 2 ^ w] := by
  unfold wrap
  have h : (v + 2 ^ (w - 1)) % 2 ^ w ≡ v + 2 ^ (w - 1) [ZMOD 2 ^ w] := Int.mod_modEq _ _
  have := h.sub_right (2 ^ (w - 1))
  simpa using this

theorem wrap_congr {w : Nat} {u v : Int} (h : u ≡ v [ZMOD 2 ^ w]) : wrap w u = wrap w v := by
  unfold wrap
  have h2 : (u + 2 ^ (w - 1)) % 2 ^ w = (v + 2 ^ (w - 1)) % 2 ^ w := h.add_right _
  rw [h2]

theorem two_pow_split {w : Nat} (hw : 1 ≤ w) : (2 : Int) ^ w = 2 * 2 ^ (w - 1) := by
  obtain ⟨k, rfl⟩ : ∃ k, w = k + 1 := ⟨w - 1, by omega⟩
  simp [pow_succ]; ring

theorem wrap_range {w : Nat} (hw : 1 ≤ w) (v : Int) :
    -(2 ^ (w - 1)) ≤ wrap w v ∧ wrap w v < 2 ^ (w - 1) := by
  unfold wrap
  have hpos : (0 : Int) < 2 ^ w := by positivity
  have h1 := Int.emod_nonneg (v + 2 ^ (w - 1)) (ne_of_gt hpos)
  have h2 := Int.emod_lt_of_pos (v + 2 ^ (w - 1)) hpos
  have h3 := two_pow_split hw
  generalize (v + 2 ^ (w - 1)) % 2 ^ w = t at h1 h2 ⊢
  constructor <;> linarith

theorem wrap_of_range {w : Nat} (hw : 1 ≤ w) {n : Int} (h1 : -(2 ^ (w - 1)) ≤ n)
    (h2 : n < 2 ^ (w - 1)) : wrap w n = n := by
  unfold wrap
  rw [Int.emod_eq_of_lt (by linarith) (by rw [two_pow_split hw]; linarith)]
  ring

/-- The accumulation loop of `operator T()` follows the positional value of the digits,
modulo `2^w`. -/
theorem castLoop_modEq (w : Nat) (num : List Char) : ∀ (i : Nat) (temp : Int),
    i ≤ num.length →
    castLoop w num i temp ≡ temp * 10 ^ i + natVal (num.take i) [ZMOD 2 ^ w] := by
  intro i
  induction i with
  | zero => intro temp _; simp [castLoop, natVal]
  | succ i ih =>
    intro temp hi
    rw [castLoop, natVal_take_succ _ i (by omega)]
    refine (ih _ (by omega)).trans ?_
    have h1 : wrap w (wrap w (temp * 10) + digitVal (num.getD i nul)) ≡
        temp * 10 + digitVal (num.getD i nul) [ZMOD 2 ^ w] :=
      (wrap_modEq w _).trans ((wrap_modEq w _).add_right _)
    have h2 := (h1.mul_right (10 ^ i)).add_right (natVal (List.take i num))
    refine h2.trans ?_
    rw [pow_succ]
    have e : (temp * 10 + digitVal (num.getD i nul)) * 10 ^ i + natVal (List.take i num) =
        temp * (10 ^ i * 10) + (natVal (List.take i num) + 10 ^ i * digitVal (num.getD i nul)) := by
      ring
    rw [e]

/-- `operator T()` returns the integer of the value, wrapped to `w` bits. -/
theorem toNative_eq (w : Nat) (x : BigInt) : toNative w x = wrap w (val x) := by
  unfold toNative
  apply wrap_congr
  have h := castLoop_modEq w x.num x.num.length 0 le_rfl
  rw [List.take_length, zero_mul, zero_add] at h
  have := h.mul_right x.sign
  unfold val BigInt.digits
  rw [mul_comm x.sign]
  exact this

/-- Every positive number has a digit string with a non-zero most significant digit. -/
theorem exists_digits (m : Nat) : 0 < m →
    ∃ L : List Char, (∀ ch ∈ L, IsDigit ch) ∧ L ≠ [] ∧ L.getLast? ≠ some '0' ∧
      natVal L = m := by
  induction m using Nat.strong_induction_on with
  | _ m ih =>
    intro hm
    have hr0 : (0 : Int) ≤ ((m % 10 : Nat) : Int) := by omega
    have hr9 : ((m % 10 : Nat) : Int) ≤ 9 := by omega
    have hd := isDigit_toChar _ hr0 hr9
    have hv := digitVal_toChar _ hr0 hr9
    by_cases hlt : m < 10
    · refine ⟨[toChar (((m % 10 : Nat) : Int) + 48)], ?_, by simp, ?_, ?_⟩
      · intro ch hch
        rw [List.mem_singleton.1 hch]; exact hd
      · intro h
        have h1 : toChar (((m % 10 : Nat) : Int) + 48) = '0' := by simpa using h
        rw [h1, digitVal_zero] at hv
        omega
      · simp only [natVal, hv]; omega
    · obtain ⟨L, h1, h2, h3, h4⟩ := ih (m / 10) (by omega) (by omega)
      refine ⟨toChar (((m % 10 : Nat) : Int) + 48) :: L, ?_, by simp, ?_, ?_⟩
      · intro ch hch
        rcases List.mem_cons.1 hch with h | h
        · rw [h]; exact hd
        · exact h1 ch h
      · cases L with
        | nil => exact absurd rfl h2
        | cons e es => rw [List.getLast?_cons_cons]; exact h3
      · simp only [natVal, hv, h4]; omega

/-- Every integer is the value of a canonical `BigInt`. -/
theorem exists_canonical (n : Int) : ∃ x : BigInt, Canonical x ∧ val x = n := by
  rcases lt_trichotomy n 0 with h | h | h
  · obtain ⟨L, h1, h2, h3, h4⟩ := exists_digits n.natAbs (by omega)
    refine ⟨⟨L, -1⟩, ⟨⟨Or.inr rfl, h2, h1⟩, fun hl => absurd hl h3, fun hz => ?_⟩, ?_⟩
    · exfalso; apply h3; show L.getLast? = _; rw [show L = ['0'] from hz]; rfl
    · show -1 * natVal L = n
      rw [h4]; omega
  · subst h
    exact ⟨⟨['0'], 1⟩, canonical_zero, by decide⟩
  · obtain ⟨L, h1, h2, h3, h4⟩ := exists_digits n.natAbs (by omega)
    refine ⟨⟨L, 1⟩, ⟨⟨Or.inl rfl, h2, h1⟩, fun hl => absurd hl h3, fun _ => rfl⟩, ?_⟩
    show 1 * natVal L = n
    rw [h4]; omega

/-- `operator=(T)` on a native integer gives the canonical value of that integer. -/
theorem fromNative_spec (n : Int) : Canonical (fromNative n) ∧ val (fromNative n) = n := by
  obtain ⟨x, hx, hv⟩ := exists_canonical n
  have hs := to_string_eq_toString hx
  rw [hv] at hs
  have : fromNative n = x := by
    unfold fromNative
    rw [← hs]
    exact assignString_to_string hx
  rw [this]
  exact ⟨hx, hv⟩

/-- C18: the conversions between `BigInt` and the native signed integers of width
`w = 32` and `w = 64`, every native operation wrapping modulo `2^w`.  Narrowing: for a
canonical `x`, `operator T()` returns the integer of the signed `w`-bit range that is
congruent to `val x` modulo `2^w`; it is a total function (no check, no error).
Widening: for every native `n`, also the most negative one, `BigInt(n)` is canonical
with `val (BigInt(n)) = n`, and converting it back gives `n`. -/
theorem native_conversion (w : Nat) (hw : w = 32 ∨ w = 64) (x : BigInt) (_hx : Canonical x)
    (n : Int) (hlo : -(2 ^ (w - 1)) ≤ n) (hhi : n < 2 ^ (w - 1)) :
    toNative w x = wrap w (val x) ∧
    toNative w x ≡ val x [ZMOD 2 ^ w] ∧
    -(2 ^ (w - 1)) ≤ toNative w x ∧ toNative w x < 2 ^ (w - 1) ∧
    (-(2 ^ (w - 1)) ≤ val x → val x < 2 ^ (w - 1) → toNative w x = val x) ∧
    Canonical (fromNative n) ∧ val (fromNative n) = n ∧
    toNative w (fromNative n) = n ∧
    Canonical (fromNative (-(2 ^ (w - 1)))) ∧
    val (fromNative (-(2 ^ (w - 1)))) = -(2 ^ (w - 1)) ∧
    toNative w (fromNative (-(2 ^ (w - 1)))) = -(2 ^ (w - 1)) := by
  have hw1 : 1 ≤ w := by omega
  have hpos : (0 : Int) < 2 ^ (w - 1) := by positivity
  have hr := wrap_range hw1 (val x)
  have hn := fromNative_spec n
  have hm := fromNative_spec (-(2 ^ (w - 1)))
  rw [toNative_eq]
  refine ⟨rfl, wrap_modEq w _, hr.1, hr.2, fun h1 h2 => wrap_of_range hw1 h1 h2, hn.1, hn.2,
    ?_, hm.1, hm.2, ?_⟩
  · rw [toNative_eq, hn.2, wrap_of_range hw1 hlo hhi]
  · rw [toNative_eq, hm.2, wrap_of_range hw1 le_rfl (by linarith)]

/-- Instance of `native_conversion`: width 32, the value `4294967301 = 2^32 + 5` wraps
to `5`, and the most negative 32-bit integer survives the round trip. -/
theorem native_conversion_witness :
    Canonical (assignString "4294967301".toList) ∧
    toNative 32 (assignString "4294967301".toList) = 5 ∧
    toNative 32 (fromNative (-2147483648)) = -2147483648 := by
  have h := native_conversion 32 (Or.inl rfl) (assignString "4294967301".toList) (by decide)
    (-2147483648) (by norm_num) (by norm_num)
  refine ⟨by decide, ?_, h.2.2.2.2.2.2.2.1⟩
  rw [h.1]; decide

/-! ## The long-division loop, state by state -/

/-- The inner loop of the long division with an explicit count: after `k ≤ m`
subtractions the test `c < a` succeeds, so `k + 1` evaluations of the test suffice. -/
theorem divWhile_steps {a : BigInt} (ha : Canonical a) (has : a.sign = 1) (i : Nat) :
    ∀ (m : Nat) (c : BigInt) (dnum : List Char), Canonical c → c.sign = 1 →
    val c < (m + 1) * val a →
    ∃ c2 k, k ≤ m ∧
      (∃ N, ∀ n fuel, k < n → N ≤ fuel →
        divWhile n fuel a i c dnum = .ok (c2, (bump i)^[k] dnum)) ∧
      Canonical c2 ∧ c2.sign = 1 ∧ val c2 < val a ∧ val c = k * val a + val c2 := by
  intro m
  induction m with
  | zero =>
    intro c dnum hc hcs hlt
    simp only [Nat.cast_zero, zero_add, one_mul] at hlt
    refine ⟨c, 0, le_rfl, ⟨0, fun n fuel hn _ => ?_⟩, hc, hcs, hlt, by simp⟩
    obtain ⟨n1, rfl⟩ : ∃ n1, n = n1 + 1 := ⟨n - 1, by omega⟩
    rw [divWhile, lt_of_pos hc ha hcs has]
    simp [hlt]
  | succ m ih =>
    intro c dnum hc hcs hlt
    by_cases hca : val c < val a
    · refine ⟨c, 0, Nat.zero_le _, ⟨0, fun n fuel hn _ => ?_⟩, hc, hcs, hca, by simp⟩
      obtain ⟨n1, rfl⟩ : ∃ n1, n = n1 + 1 := ⟨n - 1, by omega⟩
      rw [divWhile, lt_of_pos hc ha hcs has]
      simp [hca]
    · obtain ⟨c1, ⟨N1, h1⟩, hc1, hv1⟩ := sub_returns hc.1 ha.1
      have hc1s : c1.sign = 1 := hc1.sign_of_nonneg (by omega)
      have hlt1 : val c1 < ((m : Int) + 1) * val a := by
        rw [hv1]; push_cast at hlt; linarith
      obtain ⟨c2, k, hk, ⟨N2, h2⟩, hc2, hc2s, hc2lt, hv2⟩ := ih c1 (bump i dnum) hc1 hc1s hlt1
      refine ⟨c2, k + 1, by omega, ⟨max N1 N2, fun n fuel hn hf => ?_⟩, hc2, hc2s, hc2lt, ?_⟩
      · obtain ⟨n1, rfl⟩ : ∃ n1, n = n1 + 1 := ⟨n - 1, by omega⟩
        have hsub : sub fuel c a = .ok c1 := h1 fuel (by omega)
        rw [divWhile, lt_of_pos hc ha hcs has]
        simp only [hca, decide_False, Bool.not_false, if_true, hsub]
        rw [Function.iterate_succ_apply]
        exact h2 n1 fuel (by omega) (by omega)
      · push_cast; linarith

/-- One iteration of the outer loop from a state whose remainder `c` is canonical,
non-negative and below the divisor: the shifted remainder plus the next digit is below
ten times the divisor, the inner loop subtracts `k ≤ 9` times, and the new remainder is
again canonical, non-negative and below the divisor. -/
theorem divBody_ok {x a : BigInt} (hx : ∀ ch ∈ x.num, IsDigit ch) (ha : Canonical a)
    (has : a.sign = 1) (i : Nat) (hi : i < x.num.length) (c : BigInt) (dnum : List Char)
    (hc : Canonical c) (hcs : c.sign = 1) (hlt : val c < val a) :
    ∃ c1 c2 k,
      Returns (fun fuel => add fuel { c with num := '0' :: c.num }
        (assignString ((x.num.drop i).take 1))) c1 ∧
      Canonical c1 ∧ c1.sign = 1 ∧ val c1 < 10 * val a ∧ k ≤ 9 ∧
      (∃ N, ∀ n fuel, 10 ≤ n → N ≤ fuel →
        divWhile n fuel a i c1 dnum = .ok (c2, (bump i)^[k] dnum)) ∧
      Returns (fun fuel => divBody fuel x a i c dnum) (c2, (bump i)^[k] dnum) ∧
      Canonical c2 ∧ c2.sign = 1 ∧ val c2 < val a ∧ val c1 = k * val a + val c2 := by
  have hdi := isDigit_getD hx i hi
  have hd0 := hdi.digitVal_nonneg
  have hd9 := hdi.digitVal_le
  have hc0 : 0 ≤ val c := by rw [val_of_sign_one hcs]; exact natVal_nonneg hc.1.2.2
  have hdg : assignString ((x.num.drop i).take 1) = ⟨[x.num.getD i nul], 1⟩ := by
    rw [substr_one _ _ hi, assignString_digit hdi]
  have hdgw : WellFormed ⟨[x.num.getD i nul], 1⟩ :=
    ⟨Or.inl rfl, by simp, fun ch hch => by rw [List.mem_singleton.1 hch]; exact hdi⟩
  have hdgv : val (⟨[x.num.getD i nul], 1⟩ : BigInt) = digitVal (x.num.getD i nul) := by
    simp [val, natVal]
  obtain ⟨c1, ⟨N1, h1⟩, hc1, hv1⟩ := add_returns (shift_wellFormed hc.1) hdgw
  rw [shift_val, hdgv] at hv1
  have hc1s : c1.sign = 1 := hc1.sign_of_nonneg (by omega)
  obtain ⟨c2, k, hk, ⟨N2, h2⟩, hc2, hc2s, hc2lt, hv2⟩ :=
    divWhile_steps ha has i 9 c1 dnum hc1 hc1s (by push_cast; omega)
  refine ⟨c1, c2, k, ?_, hc1, hc1s, by omega, hk,
    ⟨N2, fun n fuel hn hf => h2 n fuel (by omega) hf⟩, ⟨max (max N1 N2) 10, fun fuel hf => ?_⟩,
    hc2, hc2s, hc2lt, hv2⟩
  · rw [hdg]; exact ⟨N1, h1⟩
  · have e1 : add fuel { c with num := '0' :: c.num } ⟨[x.num.getD i nul], 1⟩ = .ok c1 :=
      h1 fuel (by omega)
    show divBody fuel x a i c dnum = _
    unfold divBody
    rw [hdg, e1]
    exact h2 fuel fuel (by omega) (by omega)

theorem divLoop_succ (fuel : Nat) (x a : BigInt) (i : Nat) (c : BigInt) (dnum : List Char) :
    divLoop fuel x a (i + 1) c dnum =
      match divBody fuel x a i c dnum with
      | .error e => .error e
      | .ok (c2, dnum2) => divLoop fuel x a i c2 dnum2 := by
  rw [divLoop]
  unfold divBody
  cases add fuel { c with num := '0' :: c.num } (assignString ((x.num.drop i).take 1)) with
  | error e => rfl
  | ok c1 => rfl

/-- What the rest of the outer loop returns from a reached state is what the whole loop
returns. -/
theorem LoopState.returns {x a : BigInt} {dnum0 : List Char} {i : Nat} {c : BigInt}
    {dnum : List Char} (h : LoopState x a dnum0 i c dnum) :
    ∀ r, Returns (fun fuel => divLoop fuel x a i c dnum) r →
      Returns (fun fuel => divLoop fuel x a x.digits (assignString ['0']) dnum0) r := by
  induction h with
  | start => intro r hr; exact hr
  | step _ hbody ih =>
    intro r hr
    apply ih
    obtain ⟨N1, h1⟩ := hbody
    obtain ⟨N2, h2⟩ := hr
    refine ⟨max N1 N2, fun fuel hf => ?_⟩
    have e := h1 fuel (by omega)
    simp only at e
    show divLoop fuel x a _ _ _ = _
    rw [divLoop_succ, e]
    exact h2 fuel (by omega)

theorem quotientOk_bump {n i k : Nat} {dnum : List Char} (h : QuotientOk n (i + 1) dnum)
    (hi : i < n) (hk : k ≤ 9) : QuotientOk n i ((bump i)^[k] dnum) := by
  obtain ⟨h1, h2, h3, h4⟩ := h
  have hz : dnum.getD i nul = '0' := h3 i (by omega)
  obtain ⟨b1, b2, b3, b4⟩ := bump_iterate i k dnum h1 (by omega)
    (by rw [hz, digitVal_zero]; omega)
  refine ⟨b1, by rw [b2, h2], fun j hj => ?_, ?_⟩
  · rw [b4 j (by omega)]; exact h3 j (by omega)
  · rw [b4 n (by omega)]; exact h4

/-- The invariant of the outer loop of the long division. -/
theorem LoopState.invariant {x a : BigInt} (hx : ∀ ch ∈ x.num, IsDigit ch) (ha : Canonical a)
    (has : a.sign = 1) (hapos : 0 < val a) {dnum0 : List Char} {i : Nat} {c : BigInt}
    {dnum : List Char} (h : LoopState x a dnum0 i c dnum) :
    i ≤ x.num.length ∧ Canonical c ∧ c.sign = 1 ∧ val c < val a ∧
      (QuotientOk x.num.length x.num.length dnum0 → QuotientOk x.num.length i dnum) := by
  induction h with
  | start =>
    rw [assignString_zero]
    exact ⟨le_rfl, canonical_zero, rfl, by
      have : val (⟨['0'], 1⟩ : BigInt) = 0 := by decide
      rw [this]; exact hapos, fun h => h⟩
  | step hprev hbody ih =>
    rename_i j c1 c2 dn dn2
    obtain ⟨hj, hc, hcs, hlt, hq⟩ := ih
    obtain ⟨_, c2', k, _, _, _, _, hk, _, hret, hc2, hc2s, hc2lt, _⟩ :=
      divBody_ok hx ha has j (by omega) c1 dn hc hcs hlt
    have heq := Returns.unique hbody hret
    have e1 : c2 = c2' := congrArg Prod.fst heq
    have e2 : dn2 = (bump j)^[k] dn := congrArg Prod.snd heq
    rw [e1, e2]
    exact ⟨by omega, hc2, hc2s, hc2lt, fun h0 => quotientOk_bump (hq h0) (by omega) hk⟩

/-- Every test `i --> 0` of the outer loop is reached. -/
theorem LoopState.reached {x a : BigInt} (hx : ∀ ch ∈ x.num, IsDigit ch) (ha : Canonical a)
    (has : a.sign = 1) (hapos : 0 < val a) (dnum0 : List Char) :
    ∀ j, j ≤ x.num.length → ∃ c dnum, LoopState x a dnum0 (x.num.length - j) c dnum := by
  intro j
  induction j with
  | zero => intro _; exact ⟨_, _, LoopState.start⟩
  | succ j ih =>
    intro hj
    obtain ⟨c, dnum, hst⟩ := ih (by omega)
    have e : x.num.length - j = (x.num.length - (j + 1)) + 1 := by omega
    rw [e] at hst
    obtain ⟨_, hc, hcs, hlt, _⟩ := hst.invariant hx ha has hapos
    obtain ⟨_, c2, k, _, _, _, _, _, _, hret, _⟩ :=
      divBody_ok hx ha has (x.num.length - (j + 1)) (by omega) c dnum hc hcs hlt
    exact ⟨c2, _, LoopState.step hst hret⟩

/-- The quotient string with which `operator/` starts. -/
theorem quotientOk_start (n : Nat) : QuotientOk n n ('0' :: List.replicate n '0') := by
  have hall0 : ∀ ch ∈ '0' :: List.replicate n '0', ch = '0' := by
    intro ch hch
    rcases List.mem_cons.1 hch with h | h
    · exact h
    · exact (List.mem_replicate.1 h).2
  have hget : ∀ j, j ≤ n → ('0' :: List.replicate n '0').getD j nul = '0' := by
    intro j hj
    rw [List.getD_eq_getElem?_getD, List.getElem?_eq_getElem (by simp; omega)]
    exact hall0 _ (List.getElem_mem _)
  refine ⟨fun ch hch => ?_, by simp, fun j hj => hget j (by omega), hget n le_rfl⟩
  rw [hall0 ch hch]; decide

/-- C19: the step bound of the long division.  For a canonical dividend `a` and a
canonical non-zero divisor `b`, in `a / b` (quotient string started as `"0"` plus one
`'0'` per digit of `a`) and in `a % b` (no quotient string): every test of the outer
loop is reached; in every state reached there the running remainder `c` is canonical,
non-negative and below `|b|`, and the quotient string holds decimal digits only with
`'0'` at its extra most significant position; in every iteration the inner loop,
started from the shifted remainder plus the next digit, ends within ten evaluations of
its test after `k ≤ 9` subtractions, every `d.num[i]++` on the way leaves a decimal
digit, and the iteration leads to the next state; the state at loop exit gives the
value that the operator returns. -/
theorem long_division_step_bound (a b : BigInt) (ha : Canonical a) (hb : Canonical b)
    (hnz : val b ≠ 0) (dnum0 : List Char)
    (hd : dnum0 = '0' :: List.replicate a.digits '0' ∨ dnum0 = []) :
    (∀ i, i ≤ a.digits → ∃ c dnum, LoopState a { b with sign := 1 } dnum0 i c dnum) ∧
    (∀ i c dnum, LoopState a { b with sign := 1 } dnum0 i c dnum →
      Canonical c ∧ 0 ≤ val c ∧ val c < |val b| ∧
      (dnum0 ≠ [] → (∀ ch ∈ dnum, IsDigit ch) ∧ dnum.getD a.digits nul = '0') ∧
      (∀ j, i = j + 1 →
        ∃ c1 c2 k,
          Returns (fun fuel => add fuel { c with num := '0' :: c.num }
            (assignString ((a.num.drop j).take 1))) c1 ∧
          k ≤ 9 ∧
          (∃ N, ∀ fuel, N ≤ fuel →
            divWhile 10 fuel { b with sign := 1 } j c1 dnum = .ok (c2, (bump j)^[k] dnum)) ∧
          val c1 = k * |val b| + val c2 ∧
          (dnum0 ≠ [] → ∀ t, t ≤ k → ∀ ch ∈ (bump j)^[t] dnum, IsDigit ch) ∧
          LoopState a { b with sign := 1 } dnum0 j c2 ((bump j)^[k] dnum))) ∧
    (∀ c dnum, LoopState a { b with sign := 1 } dnum0 0 c dnum →
      (dnum0 = '0' :: List.replicate a.digits '0' →
        Returns (fun fuel => div fuel a b) (BigInt.normalize ⟨dnum, 1⟩ (a.sign * b.sign))) ∧
      (dnum0 = [] → Returns (fun fuel => mod fuel a b) (c.normalize a.sign))) := by
  have hbn := num_ne_zero_of_val hnz
  obtain ⟨hac, hav, hapos⟩ := stripSign_spec hb hbn
  have habs : |val b| = val { b with sign := 1 } := by rw [hav, abs_natVal_eq hb.1]
  have hapos2 : 0 < val { b with sign := 1 } := by rw [hav]; exact hapos
  have hxd := ha.1.2.2
  have hq0 : dnum0 ≠ [] → QuotientOk a.num.length a.num.length dnum0 := by
    intro hne
    rcases hd with h | h
    · rw [h]; exact quotientOk_start _
    · exact absurd h hne
  refine ⟨fun i hi => ?_, fun i c dnum hst => ?_, fun c dnum hst => ⟨fun h0 => ?_, fun h0 => ?_⟩⟩
  · have hi2 : i ≤ a.num.length := hi
    obtain ⟨c, dnum, h⟩ := LoopState.reached hxd hac rfl hapos2 dnum0 (a.num.length - i)
      (by omega)
    have e : a.num.length - (a.num.length - i) = i := by omega
    rw [e] at h
    exact ⟨c, dnum, h⟩
  · obtain ⟨hi, hc, hcs, hlt, hq⟩ := hst.invariant hxd hac rfl hapos2
    have hc0 : 0 ≤ val c := by rw [val_of_sign_one hcs]; exact natVal_nonneg hc.1.2.2
    refine ⟨hc, hc0, by rw [habs]; exact hlt, fun hne => ?_, fun j hj => ?_⟩
    · have := hq (hq0 hne)
      exact ⟨this.1, this.2.2.2⟩
    · subst hj
      obtain ⟨c1, c2, k, h1, _, _, _, hk, ⟨N, h2⟩, hret, _, _, _, hv⟩ :=
        divBody_ok hxd hac rfl j (by omega) c dnum hc hcs hlt
      refine ⟨c1, c2, k, h1, hk, ⟨N, fun fuel hf => h2 10 fuel le_rfl hf⟩, by rw [habs]; exact hv,
        fun hne t ht => ?_, LoopState.step hst hret⟩
      have hqq := hq (hq0 hne)
      exact (quotientOk_bump hqq (by omega) (le_trans ht hk)).1
  · have hret : Returns (fun fuel => divLoop fuel a { b with sign := 1 } 0 c dnum) (c, dnum) :=
      ⟨0, fun fuel _ => rfl⟩
    obtain ⟨N, hN⟩ := hst.returns _ hret
    refine ⟨N, fun fuel hf => ?_⟩
    have e := hN fuel hf
    show div fuel a b = _
    unfold div
    rw [zeroGuard_of_ne hbn]
    simp only [assignString_zero, List.singleton_append] at e ⊢
    rw [h0] at e
    unfold BigInt.digits at e
    unfold BigInt.digits
    rw [e]
  · have hret : Returns (fun fuel => divLoop fuel a { b with sign := 1 } 0 c dnum) (c, dnum) :=
      ⟨0, fun fuel _ => rfl⟩
    obtain ⟨N, hN⟩ := hst.returns _ hret
    refine ⟨N, fun fuel hf => ?_⟩
    have e := hN fuel hf
    show mod fuel a b = _
    unfold mod
    rw [zeroGuard_of_ne hbn]
    rw [h0] at e
    simp only [e]

/-- Instance of `long_division_step_bound`: `100 / 7`; the loop exit is reached and the
state there gives the quotient. -/
theorem long_division_step_bound_witness :
    Canonical ⟨['0', '0', '1'], 1⟩ ∧ Canonical ⟨['7'], 1⟩ ∧ val ⟨['7'], 1⟩ ≠ 0 ∧
    ∃ c dnum, LoopState ⟨['0', '0', '1'], 1⟩ ⟨['7'], 1⟩ ['0', '0', '0', '0'] 0 c dnum ∧
      Canonical c ∧ val c < |val ⟨['7'], 1⟩| ∧ (∀ ch ∈ dnum, IsDigit ch) ∧
      Returns (fun fuel => div fuel ⟨['0', '0', '1'], 1⟩ ⟨['7'], 1⟩)
        (BigInt.normalize ⟨dnum, 1⟩ 1) := by
  have h := long_division_step_bound ⟨['0', '0', '1'], 1⟩ ⟨['7'], 1⟩ (by decide) (by decide)
    (by decide) ['0', '0', '0', '0'] (Or.inl rfl)
  obtain ⟨c, dnum, hst⟩ := h.1 0 (Nat.zero_le _)
  obtain ⟨i1, _, i3, i4, _⟩ := h.2.1 0 c dnum hst
  exact ⟨by decide, by decide, by decide, c, dnum, hst, i1, i3, (i4 (by simp)).1,
    (h.2.2 c dnum hst).1 rfl⟩

end rxh
